import Mathlib

/-!
# Verification of the Lancelot binary-analysis core

A shallow embedding, in Lean 4, of the parts of the Lancelot source that the
specification's claims are about, together with theorems settling each claim.

Conventions used throughout:
* Machine integers are modelled as `Nat`; wrap-around and truncation are made
  explicit (`% 2 ^ w`, `&&& mask`) exactly where the Rust source relies on them.
* Fallible Rust code (`Result`, `Option`) is modelled with `Except` / `Option`.
* A Rust `panic!` (including out-of-bounds indexing and `unwrap` on `None`)
  is modelled as a distinguished error value, so that "the code aborts here"
  is an observable outcome of the embedded function.
-/

set_option maxHeartbeats 1000000

/-! ## FLIRT: IDA-variant CRC16 (`src/flirt/src/lib.rs`, `FlirtSignatureMatcher::crc16`) -/

namespace Flirt

/-- One bit-step of the CRC16 loop body:
`if ((crc ^ b) & 1) > 0 { crc = (crc >> 1) ^ POLY } else { crc >>= 1 }`. -/
def crcBitStep (crc b : Nat) : Nat :=
  if (crc ^^^ b) &&& 1 > 0 then (crc >>> 1) ^^^ 0x8408 else crc >>> 1

/-- The inner `for _ in 0..8` loop of `crc16`: `k` remaining bit steps,
shifting `b` right by one each step. -/
def crcBits : Nat → Nat → Nat → Nat
  | 0, crc, _ => crc
  | k + 1, crc, b => crcBits k (crcBitStep crc b) (b >>> 1)

/-- `FlirtSignatureMatcher::crc16` from `src/flirt/src/lib.rs`.
`crc` is a `u32` in the source; it never exceeds 16 bits during the loop, and
the final `!crc` (32-bit complement) is modelled as `^^^ 0xFFFFFFFF`. -/
def crc16 (buf : List Nat) : Nat :=
  if buf.length == 0 then
    0
  else
    let crc := buf.foldl (fun crc b => crcBits 8 crc b) 0xFFFF
    let crc := crc ^^^ 0xFFFFFFFF
    let h1 := (crc >>> 0) &&& 0xFF
    let h2 := (crc >>> 8) &&& 0xFF
    (h1 <<< 8) ||| (h2 <<< 0)

/-- The CRC16 algorithm as the specification words it (§4.7 of the spec):
start from `0xFFFF`; for each byte, eight bit steps updating
`crc` to `(crc >> 1) ^ 0x8408` when `((crc ^ b) & 1) != 0` and to `crc >> 1`
otherwise while shifting `b` right; then complement, mask to 16 bits, and
swap the two result bytes.  Written as direct recursion over the byte list,
independent of the source's `u32`-typed accumulator. -/
def crc16SpecGo : List Nat → Nat → Nat
  | [], crc => crc
  | b :: rest, crc => crc16SpecGo rest (crcBits 8 crc b)

def crc16Spec (buf : List Nat) : Nat :=
  match buf with
  | [] => 0
  | _ :: _ =>
    let crc := crc16SpecGo buf 0xFFFF
    let crc := (crc ^^^ 0xFFFF) &&& 0xFFFF
    ((crc &&& 0xFF) <<< 8) ||| ((crc >>> 8) &&& 0xFF)

lemma crcBitStep_lt (crc b : Nat) (h : crc < 2 ^ 16) : crcBitStep crc b < 2 ^ 16 := by
  unfold crcBitStep
  have hshift : crc >>> 1 < 2 ^ 16 := by
    rw [Nat.shiftRight_eq_div_pow]
    exact lt_of_le_of_lt (Nat.div_le_self _ _) h
  split
  · exact Nat.xor_lt_two_pow hshift (by norm_num)
  · exact hshift

lemma crcBits_lt (k crc b : Nat) (h : crc < 2 ^ 16) : crcBits k crc b < 2 ^ 16 := by
  induction k generalizing crc b with
  | zero => exact h
  | succ k ih => exact ih _ _ (crcBitStep_lt _ _ h)

lemma crcFold_lt (buf : List Nat) (crc : Nat) (h : crc < 2 ^ 16) :
    buf.foldl (fun crc b => crcBits 8 crc b) crc < 2 ^ 16 := by
  induction buf generalizing crc with
  | nil => exact h
  | cons b rest ih => exact ih _ (crcBits_lt _ _ _ h)

lemma crc16SpecGo_eq_foldl (buf : List Nat) (crc : Nat) :
    crc16SpecGo buf crc = buf.foldl (fun crc b => crcBits 8 crc b) crc := by
  induction buf generalizing crc with
  | nil => rfl
  | cons b rest ih => simp [crc16SpecGo, ih]

lemma shiftRight_xor (a b k : Nat) : (a ^^^ b) >>> k = (a >>> k) ^^^ (b >>> k) := by
  apply Nat.eq_of_testBit_eq
  intro i
  simp [Nat.testBit_shiftRight, Nat.testBit_xor]

/-- Post-processing agreement: for a 16-bit `crc`, the source's 32-bit
complement-and-swap equals the spec's 16-bit complement-mask-and-swap. -/
lemma postprocess_eq (c : Nat) (hc : c < 2 ^ 16) :
    (((c ^^^ 0xFFFFFFFF) >>> 0 &&& 0xFF) <<< 8) ||| (((c ^^^ 0xFFFFFFFF) >>> 8 &&& 0xFF) <<< 0) =
      ((((c ^^^ 0xFFFF) &&& 0xFFFF) &&& 0xFF) <<< 8) |||
        ((((c ^^^ 0xFFFF) &&& 0xFFFF) >>> 8) &&& 0xFF) := by
  have hxlt : c ^^^ 0xFFFF < 2 ^ 16 := Nat.xor_lt_two_pow hc (by norm_num)
  have hmask : (c ^^^ 0xFFFF) &&& 0xFFFF = c ^^^ 0xFFFF := by
    have h := Nat.and_pow_two_sub_one_of_lt_two_pow hxlt
    norm_num at h
    exact h
  have hsplit : c ^^^ 0xFFFFFFFF = (c ^^^ 0xFFFF) ^^^ 0xFFFF0000 := by
    have hx : (0xFFFF : Nat) ^^^ 0xFFFF0000 = 0xFFFFFFFF := by decide
    rw [Nat.xor_assoc, hx]
  rw [hmask, hsplit]
  have hz1 : (0xFFFF0000 : Nat) &&& 0xFF = 0 := by decide
  have hz2 : ((0xFFFF0000 : Nat) >>> 8) &&& 0xFF = 0 := by decide
  have h1 : ((c ^^^ 0xFFFF) ^^^ 0xFFFF0000) &&& 0xFF = (c ^^^ 0xFFFF) &&& 0xFF := by
    rw [Nat.and_xor_distrib_right, hz1, Nat.xor_zero]
  have h2 : (((c ^^^ 0xFFFF) ^^^ 0xFFFF0000) >>> 8) &&& 0xFF =
      ((c ^^^ 0xFFFF) >>> 8) &&& 0xFF := by
    rw [shiftRight_xor, Nat.and_xor_distrib_right, hz2, Nat.xor_zero]
  simp only [Nat.shiftRight_zero, Nat.shiftLeft_zero]
  rw [h1, h2]

end Flirt

/-- C8: `crc16` returns 0 on empty input, and on any non-empty byte sequence it
computes the bit-exact IDA variant exactly as the claim words it (start from
`0xFFFF`; per byte, eight bit steps of `(crc >> 1) ^ 0x8408` when
`((crc ^ b) & 1) != 0`, else `crc >> 1`, shifting `b` right; then complement,
mask to 16 bits, swap the two result bytes). -/
theorem c8_crc16_matches_spec :
    Flirt.crc16 [] = 0 ∧ ∀ buf : List Nat, Flirt.crc16 buf = Flirt.crc16Spec buf := by
  constructor
  · rfl
  · intro buf
    match buf with
    | [] => rfl
    | b :: rest =>
      unfold Flirt.crc16 Flirt.crc16Spec
      simp only [List.length_cons, beq_iff_eq, Nat.succ_ne_zero, if_false]
      rw [Flirt.crc16SpecGo_eq_foldl]
      exact Flirt.postprocess_eq _ (Flirt.crcFold_lt _ _ (by norm_num))

/-! ## FLIRT: signatures and the regex-based matcher (`src/flirt/src/lib.rs`) -/

namespace Flirt

/-- `SigElement` from `src/flirt/src/lib.rs`: a literal byte or a wildcard. -/
inductive SigElement where
  | byte (v : Nat)
  | wildcard
  deriving DecidableEq, Repr

/-- `Name { offset, name }`. -/
structure FName where
  offset : Nat
  name : String
  deriving DecidableEq, Repr

/-- `Symbol`: public / local / reference name. -/
inductive FSymbol where
  | public (n : FName)
  | local_ (n : FName)
  | reference (n : FName)
  deriving DecidableEq, Repr

/-- `FlirtSignature` from `src/flirt/src/lib.rs`. -/
structure FlirtSignature where
  byteSig : List SigElement
  sizeOfBytesCrc16 : Nat   -- u8
  crc16 : Nat              -- u16
  sizeOfFunction : Nat     -- u16, max 0x8000
  names : List FSymbol
  footer : Option (List SigElement)
  deriving DecidableEq, Repr

/-- The element list used by `create_pattern`: the byte signature truncated to
`size_of_function` symbols when `size_of_function < 32`.
(The source slices `[..size_of_function]`, which panics when
`size_of_function` exceeds the signature length; theorems that depend on this
definition therefore carry the hypothesis ruling that case out.) -/
def patternElements (sig : FlirtSignature) : List SigElement :=
  if sig.sizeOfFunction < 32 then sig.byteSig.take sig.sizeOfFunction else sig.byteSig

/-- Semantics of one element of the regex built by `create_pattern`, matched
against one input byte.  A literal element becomes `\xNN`, which matches
exactly that byte; a wildcard becomes `.`, which — under the rust `regex`
crate's default (no `s` flag), with unicode disabled by `(?-u)` — matches any
byte EXCEPT the newline byte `0x0A`. -/
def regexElemMatches : SigElement → Nat → Bool
  | .byte v, b => b == v
  | .wildcard, b => b != 0x0A

/-- Anchored prefix match of the compiled regex `(?-u)(^pattern)` against a
buffer: `Regex::is_match` holds iff every element matches the corresponding
leading byte of the buffer. -/
def regexPrefixMatches : List SigElement → List Nat → Bool
  | [], _ => true
  | _ :: _, [] => false
  | e :: es, b :: bs => regexElemMatches e b && regexPrefixMatches es bs

/-- The wildcard rule as the claim words it: a wildcard matches ANY byte. -/
def claimElemMatches : SigElement → Nat → Bool
  | .byte v, b => b == v
  | .wildcard, _ => true

/-- Bytewise prefix match under the claim's wildcard rule. -/
def claimPrefixMatches : List SigElement → List Nat → Bool
  | [], _ => true
  | _ :: _, [] => false
  | e :: es, b :: bs => claimElemMatches e b && claimPrefixMatches es bs

/-- `FlirtSignatureMatcher::match` from `src/flirt/src/lib.rs`: first the
anchored regex over the (possibly truncated) prefix pattern, then — when
`size_of_bytes_crc16 > 0` — the CRC16 over the `size_of_bytes_crc16` bytes
that follow the FULL (untruncated) byte signature. -/
def flirtMatch (sig : FlirtSignature) (buf : List Nat) : Bool :=
  if !(regexPrefixMatches (patternElements sig) buf) then
    false
  else if sig.sizeOfBytesCrc16 > 0 then
    let byteSigSize := sig.byteSig.length
    let start := byteSigSize
    let stop := byteSigSize + sig.sizeOfBytesCrc16
    if stop > buf.length then
      false
    else if crc16 ((buf.drop start).take sig.sizeOfBytesCrc16) != sig.crc16 then
      false
    else
      true
  else
    true

/-- A minimal signature whose prefix is a single wildcard. -/
def sigWildcard : FlirtSignature :=
  { byteSig := [.wildcard]
    sizeOfBytesCrc16 := 0
    crc16 := 0
    sizeOfFunction := 1
    names := [.public ⟨0, "f"⟩]
    footer := none }

end Flirt

/-- C7 (counterexample): the claim says wildcards match any byte, but the
matcher compiles a wildcard to the regex `.` which does not match the newline
byte `0x0A`.  For the one-wildcard signature and the buffer `[0x0A]` the claim
predicts a match and `FlirtSignatureMatcher::match` returns false. -/
theorem c7_wildcard_newline_counterexample :
    Flirt.claimPrefixMatches (Flirt.patternElements Flirt.sigWildcard) [0x0A] = true ∧
      Flirt.sigWildcard.sizeOfBytesCrc16 = 0 ∧
      Flirt.flirtMatch Flirt.sigWildcard [0x0A] = false := by
  refine ⟨rfl, rfl, ?_⟩
  rfl

/-- C7 (amended): `match` returns true iff the (truncated) prefix pattern
matches the start of the buffer with wildcards matching any byte EXCEPT `0x0A`,
and, whenever `crc_length > 0`, the buffer extends at least `crc_length` bytes
past the full byte signature and the IDA CRC16 of those bytes equals the
stored value.  The hypothesis excludes the undefined (panicking) truncation
`size_of_function > |byte_sig|`. -/
theorem c7_flirt_match_amended (sig : Flirt.FlirtSignature) (buf : List Nat)
    (htrunc : sig.sizeOfFunction < 32 → sig.sizeOfFunction ≤ sig.byteSig.length) :
    Flirt.flirtMatch sig buf = true ↔
      (Flirt.regexPrefixMatches (Flirt.patternElements sig) buf = true ∧
        (0 < sig.sizeOfBytesCrc16 →
          sig.byteSig.length + sig.sizeOfBytesCrc16 ≤ buf.length ∧
            Flirt.crc16 ((buf.drop sig.byteSig.length).take sig.sizeOfBytesCrc16) =
              sig.crc16)) := by
  unfold Flirt.flirtMatch
  rcases hre : Flirt.regexPrefixMatches (Flirt.patternElements sig) buf with _ | _
  · simp
  · simp only [Bool.not_true, Bool.false_eq_true, if_false, if_true]
    rcases hcrc : sig.sizeOfBytesCrc16 with _ | n
    · simp
    · simp only [Nat.succ_ne_zero, gt_iff_lt, Nat.zero_lt_succ, if_true, true_implies,
        true_and]
      split
      · rename_i hlen
        simp only [Bool.false_eq_true, false_iff, not_and]
        intro h
        omega
      · rename_i hlen
        split
        · rename_i hne
          simp only [bne_iff_ne, ne_eq] at hne
          simp only [Bool.false_eq_true, false_iff, not_and]
          intro _
          exact hne
        · rename_i hne
          simp only [bne_iff_ne, ne_eq, not_not] at hne
          simp only [true_iff]
          exact ⟨by omega, hne⟩

/-- C7 (witness for the amended theorem): concrete evaluation at a one-byte
literal signature matching its own byte. -/
theorem c7_flirt_match_amended_witness :
    Flirt.flirtMatch
        { byteSig := [.byte 0xAA], sizeOfBytesCrc16 := 0, crc16 := 0,
          sizeOfFunction := 32, names := [], footer := none } [0xAA] = true :=
  (c7_flirt_match_amended
    { byteSig := [.byte 0xAA], sizeOfBytesCrc16 := 0, crc16 := 0,
      sizeOfFunction := 32, names := [], footer := none } [0xAA]
    (by decide)).mpr ⟨by decide, by decide⟩

/-! ## FLIRT: the prefix NFA (`src/flirt/src/nfa.rs`) -/

namespace Nfa

/-- `Symbol` from `src/flirt/src/nfa.rs`: a `u16` with byte values `0..=255`
mapping directly to their index and `256` denoting the wildcard. -/
def WILDCARD : Nat := 0x100

/-- `State`: a row of 257 transitions (0 = invalid) plus the per-state
bit-set of alive pattern indices. -/
structure NfaState where
  transitions : List Nat
  alive : List Bool
  deriving Repr

/-- `NFA { table: StateTable { capacity, states }, patterns }`. -/
structure NFA where
  capacity : Nat
  states : List NfaState
  patterns : List (List Nat)
  deriving Repr

/-- `NFA::match` from `src/flirt/src/nfa.rs`, verbatim: the body is
`// TODO` followed by `vec![]`, so it returns the empty vector for every
input, ignoring both the state table and the buffer. -/
def matchNfa (_nfa : NFA) (_buf : List Nat) : List (List Nat) :=
  []

/-- The matching relation the spec intends for the prefix NFA: the pattern's
symbols match the leading bytes of the input, a wildcard symbol matching any
byte. -/
def patMatches : List Nat → List Nat → Bool
  | [], _ => true
  | _ :: _, [] => false
  | s :: ss, b :: bs => (s == WILDCARD || s == b) && patMatches ss bs

end Nfa

/-- C1 (code bug): `NFA::match` is an unimplemented stub that returns the
empty vector for every NFA and buffer, contradicting both the claim and the
module's own documentation ("we should get all valid matches at the end").
In particular, for the single-pattern NFA over `AA` and the input `[0xAA]`
the pattern's prefix matches bytewise, yet no pattern is reported. -/
theorem c1_nfa_match_always_empty :
    (∀ (nfa : Nfa.NFA) (buf : List Nat), Nfa.matchNfa nfa buf = []) ∧
      Nfa.patMatches [0xAA] [0xAA] = true ∧
      Nfa.matchNfa
        { capacity := 1,
          states := [{ transitions := List.replicate 257 0, alive := [true] }],
          patterns := [[0xAA]] } [0xAA] = [] := by
  exact ⟨fun _ _ => rfl, rfl, rfl⟩

/-! ## PE base-relocation analyzer (`src/core/src/analysis/pe/relocs.rs`) -/

namespace Relocs

/-- `usize` width: addresses are 64-bit in this build. -/
def USIZE : Nat := 2 ^ 64

/-- Modelled from the spec: the flow-metadata record of §3 / §4.2
(`{is_insn, insn_length}`); the store itself (`core/src/flowmeta.rs`) is not
among the provided sources, so `Workspace::get_meta` is modelled as a lookup
in a caller-supplied map from RVA to this record.  `insn_length = none`
models a `get_insn_length` that returns `Err`. -/
structure FlowMeta where
  is_insn : Bool
  insn_length : Option Nat
  deriving DecidableEq, Repr

/-- `is_in_insn` from `src/core/src/analysis/pe/relocs.rs`, verbatim:
`start = rva; end = start - 0x10` (an unsigned, wrapping subtraction), then
`for i in (start..end).rev()`, returning true at the first `i` whose metadata
is an instruction with `i + len > rva`.  Note `start..end` runs UP from
`start` to `end`; since `end < start` whenever `rva ≥ 0x10`, the range is
empty in that case. -/
def is_in_insn (meta : Nat → Option FlowMeta) (rva : Nat) : Bool :=
  let start := rva
  let stop := (start + USIZE - 0x10) % USIZE
  (List.range' start (stop - start)).reverse.any fun i =>
    match meta i with
    | none => false
    | some m =>
      if !m.is_insn then false
      else
        match m.insn_length with
        | none => false
        | some len => decide (i + len > rva)

/-- Modelled from the spec (§4.5): the intended backward walk — some address
`i` within the 0x10 bytes before `rva` holds a decoded instruction whose
start plus length exceeds `rva`. -/
def is_in_insn_spec (meta : Nat → Option FlowMeta) (rva : Nat) : Bool :=
  (List.range' (rva - 0x10) (min rva 0x10)).reverse.any fun i =>
    match meta i with
    | none => false
    | some m =>
      if !m.is_insn then false
      else
        match m.insn_length with
        | none => false
        | some len => decide (i + len > rva)

/-- A metadata map holding a single two-byte instruction at address `0x20`. -/
def metaOneInsn : Nat → Option FlowMeta := fun a =>
  if a == 0x20 then some { is_insn := true, insn_length := some 2 } else none

end Relocs

/-- C4 (code bug): the backward walk in `is_in_insn` iterates the empty range
`start..start-0x10` whenever `rva ≥ 0x10` (and `rva` fits in `usize`), so the
function returns false for EVERY metadata map — in particular at `rva = 0x21`
with a two-byte instruction decoded at `0x20`, where the claim (and the
spec's intended walk) says it must return true. -/
theorem c4_is_in_insn_never_finds :
    (∀ (meta : Nat → Option Relocs.FlowMeta) (rva : Nat),
        0x10 ≤ rva → rva < Relocs.USIZE → Relocs.is_in_insn meta rva = false) ∧
      Relocs.is_in_insn_spec Relocs.metaOneInsn 0x21 = true ∧
      Relocs.is_in_insn Relocs.metaOneInsn 0x21 = false := by
  refine ⟨?_, by decide, by decide⟩
  intro meta rva h16 hsize
  unfold Relocs.is_in_insn
  have hmod : (rva + Relocs.USIZE - 0x10) % Relocs.USIZE = rva - 0x10 := by
    unfold Relocs.USIZE at hsize ⊢
    omega
  simp only [hmod]
  have hcount : rva - 0x10 - rva = 0 := by omega
  rw [hcount]
  rfl

/-- C4 (witness): the universally quantified part of `c4_is_in_insn_never_finds`
applied at the concrete failing input. -/
theorem c4_is_in_insn_never_finds_witness :
    Relocs.is_in_insn Relocs.metaOneInsn 0x21 = false :=
  c4_is_in_insn_never_finds.1 Relocs.metaOneInsn 0x21 (by decide)
    (by unfold Relocs.USIZE; norm_num)

namespace Relocs


/-- `RelocAnalyzerError` from `src/core/src/analysis/pe/relocs.rs`. -/
inductive RelocAnalyzerError where
  | invalidRelocType
  | invalidTargetAddress
  deriving DecidableEq, Repr

/-- `RelocationType` from `src/core/src/analysis/pe/relocs.rs`. -/
inductive RelocationType where
  | imageRelBasedAbsolute
  | imageRelBasedHigh
  | imageRelBasedLow
  | imageRelBasedHighLow
  | imageRelBasedHighAdj
  | imageRelArch1
  | imageRelReserved
  | imageRelArch2
  | imageRelBasedRiscVLow12S
  | imageRelBasedMIPSJmpAddr16
  | imageRelBasedDir64
  deriving DecidableEq, Repr

/-- `Reloc { typ, offset }`. -/
structure Reloc where
  typ : RelocationType
  offset : Nat
  deriving DecidableEq, Repr

/-- `parse_reloc` from `src/core/src/analysis/pe/relocs.rs`: type in the high
4 bits of the `u16` entry, offset in the low 12; type codes `11..=15` yield
`Err(InvalidRelocType)`. -/
def parse_reloc (base : Nat) (entry : Nat) : Except RelocAnalyzerError Reloc :=
  match (entry &&& 0xF000) >>> 12 with
  | 0 => .ok ⟨.imageRelBasedAbsolute, base + (entry &&& 0x0FFF)⟩
  | 1 => .ok ⟨.imageRelBasedHigh, base + (entry &&& 0x0FFF)⟩
  | 2 => .ok ⟨.imageRelBasedLow, base + (entry &&& 0x0FFF)⟩
  | 3 => .ok ⟨.imageRelBasedHighLow, base + (entry &&& 0x0FFF)⟩
  | 4 => .ok ⟨.imageRelBasedHighAdj, base + (entry &&& 0x0FFF)⟩
  | 5 => .ok ⟨.imageRelArch1, base + (entry &&& 0x0FFF)⟩
  | 6 => .ok ⟨.imageRelReserved, base + (entry &&& 0x0FFF)⟩
  | 7 => .ok ⟨.imageRelArch2, base + (entry &&& 0x0FFF)⟩
  | 8 => .ok ⟨.imageRelBasedRiscVLow12S, base + (entry &&& 0x0FFF)⟩
  | 9 => .ok ⟨.imageRelBasedMIPSJmpAddr16, base + (entry &&& 0x0FFF)⟩
  | 10 => .ok ⟨.imageRelBasedDir64, base + (entry &&& 0x0FFF)⟩
  | _ => .error .invalidRelocType

/-- `split_u32`: low and high 16-bit halves of a `u32` entry. -/
def split_u32 (e : Nat) : Nat × Nat :=
  ((e &&& 0x0000FFFF), ((e &&& 0xFFFF0000) >>> 16))

/-- The entry-processing loop in `get_relocs` (per relocation chunk): each
`u32` holds two `u16` entries; each is parsed with `parse_reloc` whose error
propagates through the `?` operator, and an entry whose fixed-up site fails
`ws.probe` breaks out of the loop with the relocs gathered so far. -/
def processEntries (probe : Nat → Bool) (base : Nat) :
    List Nat → Except RelocAnalyzerError (List Reloc)
  | [] => .ok []
  | e :: rest =>
    match parse_reloc base (split_u32 e).1 with
    | .error err => .error err
    | .ok reloc1 =>
      if !probe reloc1.offset then .ok []
      else
        match parse_reloc base (split_u32 e).2 with
        | .error err => .error err
        | .ok reloc2 =>
          if !probe reloc2.offset then .ok [reloc1]
          else
            match processEntries probe base rest with
            | .error err => .error err
            | .ok rs => .ok (reloc1 :: reloc2 :: rs)

/-- The type filter in `RelocAnalyzer::analyze`: keep `HIGHLOW` and `DIR64`;
every other successfully parsed type is warned about and dropped. -/
def keepReloc : RelocationType → Bool
  | .imageRelBasedHighLow => true
  | .imageRelBasedDir64 => true
  | _ => false

/-- `RelocAnalyzer::analyze`, reloc-gathering stage: `get_relocs(ws)?`
followed by the supported-type filter.  A `parse_reloc` error therefore
aborts the whole analyzer with `Err`. -/
def analyzeRelocs (probe : Nat → Bool) (base : Nat) (entries : List Nat) :
    Except RelocAnalyzerError (List Reloc) :=
  (processEntries probe base entries).map fun rs => rs.filter fun r => keepReloc r.typ

end Relocs

/-- C5 (counterexample): the claim says every entry whose type code is neither
3 (HIGHLOW) nor 10 (DIR64) is warned and skipped without the analyzer
erroring; but the entry `0xB000` (type code 11, offset 0) makes `parse_reloc`
return `InvalidRelocType`, which propagates and aborts the analyzer. -/
theorem c5_unknown_type_errors_counterexample :
    ((0xB000 &&& 0xF000) >>> 12 ≠ 3 ∧ (0xB000 &&& 0xF000) >>> 12 ≠ 10) ∧
      Relocs.analyzeRelocs (fun _ => true) 0 [0xB000] =
        .error .invalidRelocType := by
  exact ⟨⟨by decide, by decide⟩, rfl⟩

/-- C5 (amended): entries with a RECOGNIZED type code other than 3 and 10
(codes 0–2 and 4–9) are parsed successfully, warned, and dropped by the
supported-type filter, with processing of the remaining entries continuing
without error; entries with an unknown type code (11 and above) make
`parse_reloc` fail with `InvalidRelocType`, and that error propagates out of
the analyzer. -/
theorem c5_reloc_type_handling (base e : Nat) :
    (((e &&& 0xF000) >>> 12 < 11 → (e &&& 0xF000) >>> 12 ≠ 3 →
        (e &&& 0xF000) >>> 12 ≠ 10 →
        ∃ r, Relocs.parse_reloc base e = .ok r ∧ Relocs.keepReloc r.typ = false) ∧
      (11 ≤ (e &&& 0xF000) >>> 12 →
        Relocs.parse_reloc base e = .error .invalidRelocType)) ∧
    (∀ (probe : Nat → Bool) (rest : List Nat) r1 r2,
      Relocs.parse_reloc base ((Relocs.split_u32 e).1) = .ok r1 →
      Relocs.parse_reloc base ((Relocs.split_u32 e).2) = .ok r2 →
      probe r1.offset = true → probe r2.offset = true →
      Relocs.processEntries probe base (e :: rest) =
        (Relocs.processEntries probe base rest).map fun rs => r1 :: r2 :: rs) := by
  refine ⟨⟨?_, ?_⟩, ?_⟩
  · intro hlt hne3 hne10
    unfold Relocs.parse_reloc
    obtain ⟨t, ht⟩ : ∃ t, (e &&& 0xF000) >>> 12 = t := ⟨_, rfl⟩
    rw [ht] at hlt hne3 hne10 ⊢
    interval_cases t <;> first | exact ⟨_, rfl, rfl⟩ | omega
  · intro hge
    unfold Relocs.parse_reloc
    obtain ⟨t, ht⟩ : ∃ t, (e &&& 0xF000) >>> 12 = t := ⟨_, rfl⟩
    rw [ht] at hge ⊢
    obtain ⟨k, rfl⟩ : ∃ k, t = k + 11 := ⟨t - 11, by omega⟩
    rfl
  · intro probe rest r1 r2 h1 h2 hp1 hp2
    rw [Relocs.processEntries]
    cases hrest : Relocs.processEntries probe base rest with
    | error err =>
      simp [h1, h2, hp1, hp2, hrest, Except.map]
    | ok rs =>
      simp [h1, h2, hp1, hp2, hrest, Except.map]

/-- C5 (witness for the amended theorem): the skip-and-continue branch
evaluated at a concrete ABSOLUTE (type 0) entry, and the error branch at a
concrete type-11 entry. -/
theorem c5_reloc_type_handling_witness :
    (∃ r, Relocs.parse_reloc 0 0x0004 = .ok r ∧ Relocs.keepReloc r.typ = false) ∧
      Relocs.parse_reloc 0 0xB000 = .error .invalidRelocType :=
  ⟨(c5_reloc_type_handling 0 0x0004).1.1 (by decide) (by decide) (by decide),
    (c5_reloc_type_handling 0 0xB000).1.2 (by decide)⟩

/-! ## Paged address space (`src/core/src/aspace.rs`) -/

namespace Aspace

/-- `PAGE_SIZE` from `src/core/src/aspace.rs`. -/
def PAGE_SIZE : Nat := 0x1000

/-- `page(rva)`: `rva >> 12`. -/
def page (rva : Nat) : Nat := rva >>> 12

/-- `page_offset(rva)`: `rva & 0xFFF`. -/
def pageOffset (rva : Nat) : Nat := rva &&& 0xFFF

lemma page_eq_div (rva : Nat) : page rva = rva / PAGE_SIZE := by
  unfold page PAGE_SIZE
  rw [Nat.shiftRight_eq_div_pow]

lemma pageOffset_eq_mod (rva : Nat) : pageOffset rva = rva % PAGE_SIZE := by
  unfold pageOffset PAGE_SIZE
  have h := Nat.and_pow_two_sub_one_eq_mod rva 12
  norm_num at h
  exact h

lemma pageOffset_lt (rva : Nat) : pageOffset rva < PAGE_SIZE := by
  rw [pageOffset_eq_mod]
  exact Nat.mod_lt _ (by norm_num [PAGE_SIZE])

lemma page_decomp (rva : Nat) : PAGE_SIZE * page rva + pageOffset rva = rva := by
  rw [page_eq_div, pageOffset_eq_mod]
  exact Nat.div_add_mod rva PAGE_SIZE

lemma page_mul_add (P o : Nat) (h : o < PAGE_SIZE) :
    page (PAGE_SIZE * P + o) = P ∧ pageOffset (PAGE_SIZE * P + o) = o := by
  rw [page_eq_div, pageOffset_eq_mod]
  unfold PAGE_SIZE at h ⊢
  omega

/-- `Page<T>`: an array of exactly `PAGE_SIZE` elements. -/
def Page (T : Type) : Type := { l : List T // l.length = PAGE_SIZE }

/-- In-bounds element access into a page (`page.elements[i]`). -/
def pageGet {T : Type} (pg : Page T) (i : Nat) (h : i < PAGE_SIZE) : T :=
  pg.val.get ⟨i, pg.property.symm ▸ h⟩

/-- `DenseAddressSpace<T>`: a vector of optional pages. -/
structure DenseAddressSpace (T : Type) where
  pages : List (Option (Page T))

/-- `DenseAddressSpace::with_capacity`. -/
def withCapacity (T : Type) (capacity : Nat) : DenseAddressSpace T :=
  ⟨List.replicate (page capacity + 1) none⟩

/-- Outcomes of a slice: the source's `Error::NotMapped`, plus a marker for a
Rust `panic!` / out-of-bounds index / `unwrap` on `None`. -/
inductive SliceError where
  | notMapped
  | panic
  deriving DecidableEq, Repr

/-- `DenseAddressSpace::probe`.  The guard is `page(rva) > pages.len()` — `>`
rather than `>=` — so `page(rva) == pages.len()` falls through to the index
`pages[page(rva)]`, which is out of bounds: that case is `none` (panic). -/
def DenseAddressSpace.probe {T : Type} (d : DenseAddressSpace T) (rva : Nat) : Option Bool :=
  if page rva > d.pages.length then
    some false
  else
    match d.pages.get? (page rva) with
    | none => none
    | some p => some p.isSome

/-- `DenseAddressSpace::get`, with the same off-by-one guard as `probe`. -/
def DenseAddressSpace.get {T : Type} (d : DenseAddressSpace T) (rva : Nat) :
    Option (Option T) :=
  if page rva > d.pages.length then
    some none
  else
    match d.pages.get? (page rva) with
    | none => none
    | some none => some none
    | some (some pg) => some (some (pageGet pg (pageOffset rva) (pageOffset_lt rva)))

/-- `DenseAddressSpace::slice_simple`: start and end within the same page. -/
def DenseAddressSpace.sliceSimple {T : Type} (d : DenseAddressSpace T) (start stop : Nat) :
    Except SliceError (List T) :=
  if page start > d.pages.length then
    .error .notMapped
  else
    match d.pages.get? (page start) with
    | none => .error .panic
    | some none => .error .notMapped
    | some (some pg) =>
      if pageOffset stop < pageOffset start then
        .error .panic
      else
        .ok ((pg.val.drop (pageOffset start)).take (pageOffset stop - pageOffset start))

/-- The mapped-page check loop of `slice_split`
(`for page in start_page..end_page { if !probe { return NotMapped } }`). -/
def checkPages {T : Type} (d : DenseAddressSpace T) : List Nat → Except SliceError Unit
  | [] => .ok ()
  | p :: ps =>
    match d.probe (p * PAGE_SIZE) with
    | none => .error .panic
    | some false => .error .notMapped
    | some true => checkPages d ps

/-- Region two of `slice_split`: concatenate the full intermediate pages,
`unwrap`ping each (panic when absent). -/
def collectPages {T : Type} (d : DenseAddressSpace T) : List Nat → Except SliceError (List T)
  | [] => .ok []
  | p :: ps =>
    match d.pages.get? p with
    | some (some pg) => (collectPages d ps).map fun rest => pg.val ++ rest
    | _ => .error .panic

/-- The guarded region-two computation
(`if page(start) != page(end) - 1 { for page_index in start+1..page(end) ... }`). -/
def regionTwo {T : Type} (d : DenseAddressSpace T) (pS pE : Nat) :
    Except SliceError (List T) :=
  if pS ≠ pE - 1 then collectPages d (List.range' (pS + 1) (pE - (pS + 1)))
  else .ok []

/-- `DenseAddressSpace::slice_split`: start and end on different pages. -/
def DenseAddressSpace.sliceSplit {T : Type} (d : DenseAddressSpace T) (start stop : Nat) :
    Except SliceError (List T) :=
  if page stop > d.pages.length then
    .error .notMapped
  else
    match checkPages d (List.range' (page start)
        ((if pageOffset stop = 0 then page stop - 1 else page stop) - page start)) with
    | .error e => .error e
    | .ok _ =>
      match d.pages.get? (page start) with
      | some (some pgS) =>
        let r1 := pgS.val.drop (pageOffset start)
        match regionTwo d (page start) (page stop) with
        | .error e => .error e
        | .ok r2 =>
          if pageOffset stop ≠ 0 then
            match d.pages.get? (page stop) with
            | some (some pgE) => .ok (r1 ++ r2 ++ pgE.val.take (pageOffset stop))
            | _ => .error .panic
          else
            .ok (r1 ++ r2)
      | _ => .error .panic

/-- `DenseAddressSpace::slice`: panic when `start > end`, else dispatch on
whether start and end share a page. -/
def DenseAddressSpace.slice {T : Type} (d : DenseAddressSpace T) (start stop : Nat) :
    Except SliceError (List T) :=
  if start > stop then
    .error .panic
  else if page start = page stop then
    d.sliceSimple start stop
  else
    d.sliceSplit start stop

/-- A page is mapped when the page vector holds `Some` at its index. -/
def mappedPage {T : Type} (d : DenseAddressSpace T) (p : Nat) : Prop :=
  ∃ pg, d.pages.get? p = some (some pg)

end Aspace

/-- C3 (code bug): `probe` and `get` guard with `page(rva) > pages.len()`
instead of `>=`, so an RVA whose page index EQUALS the page count falls
through to the vector index and panics (out-of-bounds) instead of returning
`false` / `None`.  Concretely, `with_capacity(0)` allocates one page slot and
`probe(0x1000)` / `get(0x1000)` panic; in general every RVA on the page right
after the last slot panics. -/
theorem c3_probe_get_out_of_bounds :
    (Aspace.withCapacity Nat 0).probe 0x1000 = none ∧
      (Aspace.withCapacity Nat 0).get 0x1000 = none ∧
      (∀ cap rva : Nat, Aspace.page rva = Aspace.page cap + 1 →
        (Aspace.withCapacity Nat cap).probe rva = none ∧
          (Aspace.withCapacity Nat cap).get rva = none) := by
  refine ⟨rfl, rfl, ?_⟩
  intro cap rva h
  have hlen : (Aspace.withCapacity Nat cap).pages.length = Aspace.page cap + 1 := by
    simp [Aspace.withCapacity]
  have hget : (Aspace.withCapacity Nat cap).pages.get? (Aspace.page rva) = none := by
    rw [List.get?_eq_none]
    omega
  constructor
  · unfold Aspace.DenseAddressSpace.probe
    rw [if_neg (by omega), hget]
  · unfold Aspace.DenseAddressSpace.get
    rw [if_neg (by omega), hget]

/-- C3 (witness): the general out-of-capacity panic statement applied at
`cap = 0`, `rva = 0x1000`. -/
theorem c3_probe_get_out_of_bounds_witness :
    (Aspace.withCapacity Nat 0).probe 0x1000 = none ∧
      (Aspace.withCapacity Nat 0).get 0x1000 = none :=
  c3_probe_get_out_of_bounds.2.2 0 0x1000 (by decide)

namespace Aspace

variable {T : Type}

lemma page_mono {a b : Nat} (h : a ≤ b) : page a ≤ page b := by
  rw [page_eq_div, page_eq_div]
  exact Nat.div_le_div_right h

lemma page_mul (p : Nat) : page (p * PAGE_SIZE) = p := by
  rw [page_eq_div, Nat.mul_div_cancel _ (by norm_num [PAGE_SIZE])]

lemma get?_some_lt {d : DenseAddressSpace T} {p : Nat} {o : Option (Page T)}
    (h : d.pages.get? p = some o) : p < d.pages.length := by
  by_contra hge
  push_neg at hge
  rw [List.get?_eq_none.mpr hge] at h
  exact Option.noConfusion h

lemma mappedPage_lt {d : DenseAddressSpace T} {p : Nat} (h : mappedPage d p) :
    p < d.pages.length := by
  obtain ⟨pg, hpg⟩ := h
  exact get?_some_lt hpg

/-- Evaluate `get` at a mapped address. -/
lemma get_of_mapped {d : DenseAddressSpace T} {a : Nat} {pg : Page T}
    (h : d.pages.get? (page a) = some (some pg)) :
    d.get a = some (some (pageGet pg (pageOffset a) (pageOffset_lt a))) := by
  unfold DenseAddressSpace.get
  rw [if_neg (by have := get?_some_lt h; omega), h]

lemma pageGet_eq (pg : Page T) (i : Nat) (h : i < PAGE_SIZE) :
    pg.val[i]? = some (pageGet pg i h) := by
  have hi : i < pg.val.length := by rw [pg.property]; exact h
  rw [List.getElem?_eq_getElem hi]
  rfl

/-- Evaluate `probe` at a page that the page vector holds. -/
lemma probe_of_mapped {d : DenseAddressSpace T} {p : Nat} (h : mappedPage d p) :
    d.probe (p * PAGE_SIZE) = some true := by
  obtain ⟨pg, hpg⟩ := h
  unfold DenseAddressSpace.probe
  rw [page_mul]
  rw [if_neg (by have := get?_some_lt hpg; omega), hpg]
  rfl

lemma checkPages_ok {d : DenseAddressSpace T} {ps : List Nat}
    (h : ∀ p ∈ ps, mappedPage d p) : checkPages d ps = .ok () := by
  induction ps with
  | nil => rfl
  | cons p ps ih =>
    unfold checkPages
    rw [probe_of_mapped (h p (List.mem_cons_self _ _))]
    exact ih fun q hq => h q (List.mem_cons_of_mem _ hq)

lemma checkPages_notMapped {d : DenseAddressSpace T} {ps : List Nat}
    (hlt : ∀ q ∈ ps, q < d.pages.length) (habs : ∃ q ∈ ps, ¬ mappedPage d q) :
    checkPages d ps = .error .notMapped := by
  induction ps with
  | nil => obtain ⟨q, hq, _⟩ := habs; exact absurd hq (List.not_mem_nil q)
  | cons p ps ih =>
    unfold checkPages
    have hplt : p < d.pages.length := hlt p (List.mem_cons_self _ _)
    obtain ⟨o, ho⟩ : ∃ o, d.pages.get? p = some o := by
      cases hgp : d.pages.get? p with
      | none => rw [List.get?_eq_none] at hgp; omega
      | some o => exact ⟨o, rfl⟩
    have hprobe : d.probe (p * PAGE_SIZE) = some o.isSome := by
      unfold DenseAddressSpace.probe
      rw [page_mul, if_neg (by omega), ho]
    cases o with
    | none =>
      rw [hprobe]
      rfl
    | some pg =>
      rw [hprobe]
      obtain ⟨q, hq, hqabs⟩ := habs
      rcases List.mem_cons.mp hq with rfl | hq'
      · exact absurd ⟨pg, ho⟩ hqabs
      · exact ih (fun r hr => hlt r (List.mem_cons_of_mem _ hr)) ⟨q, hq', hqabs⟩

lemma collectPages_ok (d : DenseAddressSpace T) (ps : List Nat)
    (h : ∀ p ∈ ps, mappedPage d p) :
    ∃ l, collectPages d ps = .ok l ∧ l.length = PAGE_SIZE * ps.length ∧
      ∀ j, j < PAGE_SIZE * ps.length →
        ∃ p pg, ps[j / PAGE_SIZE]? = some p ∧ d.pages.get? p = some (some pg) ∧
          l[j]? = pg.val[j % PAGE_SIZE]? := by
  induction ps with
  | nil => exact ⟨[], rfl, by simp, by intro j hj; simp at hj⟩
  | cons p ps ih =>
    obtain ⟨pg, hpg⟩ := h p (List.mem_cons_self _ _)
    obtain ⟨l', hl', hlen', hpt'⟩ := ih fun q hq => h q (List.mem_cons_of_mem _ hq)
    refine ⟨pg.val ++ l', ?_, ?_, ?_⟩
    · unfold collectPages
      rw [hpg, hl']
      rfl
    · simp [pg.property, hlen', Nat.mul_succ, Nat.add_comm]
    · intro j hj
      by_cases hcase : j < PAGE_SIZE
      · refine ⟨p, pg, ?_, hpg, ?_⟩
        · rw [Nat.div_eq_of_lt hcase]
          simp
        · rw [List.getElem?_append_left (by rw [pg.property]; exact hcase),
            Nat.mod_eq_of_lt hcase]
      · push_neg at hcase
        obtain ⟨j', rfl⟩ : ∃ j', j = j' + PAGE_SIZE := ⟨j - PAGE_SIZE, by omega⟩
        have hj' : j' < PAGE_SIZE * ps.length := by
          simp only [List.length_cons, Nat.mul_succ] at hj
          omega
        obtain ⟨q, qg, hq1, hq2, hq3⟩ := hpt' j' hj'
        refine ⟨q, qg, ?_, hq2, ?_⟩
        · rw [Nat.add_div_right _ (by norm_num [PAGE_SIZE])]
          simpa using hq1
        · rw [List.getElem?_append_right (by rw [pg.property]; omega), pg.property,
            Nat.add_sub_cancel, Nat.add_mod_right]
          exact hq3

lemma regionTwo_eq {d : DenseAddressSpace T} {pS pE : Nat} (h : pS < pE) :
    regionTwo d pS pE = collectPages d (List.range' (pS + 1) (pE - (pS + 1))) := by
  unfold regionTwo
  split
  · rfl
  · rename_i heq
    push_neg at heq
    have : pE - (pS + 1) = 0 := by omega
    rw [this]
    rfl

/-- `l` holds exactly the bytes of the address space starting at `a`. -/
def coversRange (d : DenseAddressSpace T) (l : List T) (a : Nat) : Prop :=
  ∀ i, i < l.length → d.get (a + i) = some (l[i]?)

lemma coversRange_append {d : DenseAddressSpace T} {l1 l2 : List T} {a : Nat}
    (h1 : coversRange d l1 a) (h2 : coversRange d l2 (a + l1.length)) :
    coversRange d (l1 ++ l2) a := by
  intro i hi
  rw [List.length_append] at hi
  by_cases hc : i < l1.length
  · rw [List.getElem?_append_left hc]
    exact h1 i hc
  · push_neg at hc
    rw [List.getElem?_append_right hc]
    have := h2 (i - l1.length) (by omega)
    rw [show a + l1.length + (i - l1.length) = a + i from by omega] at this
    exact this

end Aspace

namespace Aspace

variable {T : Type}

lemma pageGet_irrel (pg : Page T) {i j : Nat} (hij : i = j) (hi : i < PAGE_SIZE)
    (hj : j < PAGE_SIZE) : pageGet pg i hi = pageGet pg j hj := by
  subst hij
  rfl

/-- The `end_page` bound of the probe loop equals the page of the last
byte of the range. -/
lemma endPage_eq {start stop : Nat} (h : start < stop) :
    (if pageOffset stop = 0 then page stop - 1 else page stop) = page (stop - 1) := by
  by_cases h0 : pageOffset stop = 0
  · rw [if_pos h0]
    rw [pageOffset_eq_mod] at h0
    rw [page_eq_div, page_eq_div]
    unfold PAGE_SIZE at *
    omega
  · rw [if_neg h0]
    rw [pageOffset_eq_mod] at h0
    rw [page_eq_div, page_eq_div]
    unfold PAGE_SIZE at *
    omega

/-- A mapped page covers, from offset `o` on, the addresses from
`PAGE_SIZE * p + o` to the end of the page. -/
lemma coversRange_drop {d : DenseAddressSpace T} {p : Nat} {pg : Page T}
    (hpg : d.pages.get? p = some (some pg)) (o : Nat) :
    coversRange d (pg.val.drop o) (PAGE_SIZE * p + o) := by
  intro i hi
  rw [List.length_drop, pg.property] at hi
  have hlt : o + i < PAGE_SIZE := by omega
  rw [List.getElem?_drop]
  have haddr : PAGE_SIZE * p + o + i = PAGE_SIZE * p + (o + i) := by omega
  obtain ⟨hp', ho'⟩ := page_mul_add p (o + i) hlt
  rw [haddr, get_of_mapped (show d.pages.get? (page (PAGE_SIZE * p + (o + i))) =
      some (some pg) from by rw [hp']; exact hpg)]
  rw [pageGet_eq pg (o + i) hlt]
  exact congrArg _ (congrArg _ (pageGet_irrel pg ho' _ _))

/-- A mapped page covers its first `o` addresses. -/
lemma coversRange_take {d : DenseAddressSpace T} {p : Nat} {pg : Page T}
    (hpg : d.pages.get? p = some (some pg)) (o : Nat) :
    coversRange d (pg.val.take o) (PAGE_SIZE * p) := by
  intro i hi
  rw [List.length_take, pg.property] at hi
  have hio : i < o := by omega
  have hlt : i < PAGE_SIZE := by omega
  rw [List.getElem?_take_of_lt hio]
  obtain ⟨hp', ho'⟩ := page_mul_add p i hlt
  rw [show PAGE_SIZE * p + i = PAGE_SIZE * p + i from rfl,
    get_of_mapped (show d.pages.get? (page (PAGE_SIZE * p + i)) = some (some pg) from by
      rw [hp']; exact hpg)]
  rw [pageGet_eq pg i hlt]
  exact congrArg _ (congrArg _ (pageGet_irrel pg ho' _ _))

/-- The concatenation of the full intermediate pages covers the addresses
from the start of page `pS + 1`. -/
lemma coversRange_collect {d : DenseAddressSpace T} {pS nMid : Nat} {r2 : List T}
    (hlen2 : r2.length = PAGE_SIZE * nMid)
    (hpt2 : ∀ j, j < PAGE_SIZE * nMid →
      ∃ p pg, (List.range' (pS + 1) nMid)[j / PAGE_SIZE]? = some p ∧
        d.pages.get? p = some (some pg) ∧ r2[j]? = pg.val[j % PAGE_SIZE]?) :
    coversRange d r2 (PAGE_SIZE * (pS + 1)) := by
  intro j hj
  rw [hlen2] at hj
  have hdiv : j / PAGE_SIZE < nMid := by
    unfold PAGE_SIZE at *
    omega
  obtain ⟨p, pg, hp1, hp2, hp3⟩ := hpt2 j hj
  rw [List.getElem?_range' _ _ hdiv] at hp1
  have hpval : p = pS + 1 + j / PAGE_SIZE := by
    injection hp1 with h
    omega
  have hmodlt : j % PAGE_SIZE < PAGE_SIZE := Nat.mod_lt _ (by norm_num [PAGE_SIZE])
  have haddr : PAGE_SIZE * (pS + 1) + j = PAGE_SIZE * p + (j % PAGE_SIZE) := by
    subst hpval
    unfold PAGE_SIZE at *
    omega
  obtain ⟨hp', ho'⟩ := page_mul_add p (j % PAGE_SIZE) hmodlt
  rw [haddr, get_of_mapped (show d.pages.get? (page (PAGE_SIZE * p + j % PAGE_SIZE)) =
      some (some pg) from by rw [hp']; exact hp2)]
  rw [hp3, pageGet_eq pg (j % PAGE_SIZE) hmodlt]
  exact congrArg _ (congrArg _ (pageGet_irrel pg ho' _ _))

end Aspace

namespace Aspace

variable {T : Type}

/-- Success of `slice`: when every page touched by `[start, stop)` is mapped
(the page of `start` through the page of `stop - 1`), `slice` returns
exactly `stop - start` items, in address order. -/
lemma slice_ok_of_mapped (d : DenseAddressSpace T) (start stop : Nat)
    (hle : start ≤ stop)
    (hmap : ∀ p, page start ≤ p → p ≤ page (max start (stop - 1)) → mappedPage d p) :
    ∃ l, d.slice start stop = .ok l ∧ l.length = stop - start ∧ coversRange d l start := by
  have hdecS := page_decomp start
  have hdecE := page_decomp stop
  have hoS := pageOffset_lt start
  have hoE := pageOffset_lt stop
  unfold DenseAddressSpace.slice
  rw [if_neg (by omega)]
  by_cases hsame : page start = page stop
  · rw [if_pos hsame]
    have hmax : page (max start (stop - 1)) = page start := by
      have h1 : page start ≤ page (max start (stop - 1)) := page_mono (Nat.le_max_left _ _)
      have h2 : page (max start (stop - 1)) ≤ page stop := page_mono (by omega)
      omega
    obtain ⟨pg, hpg⟩ := hmap (page start) le_rfl (by rw [hmax])
    unfold DenseAddressSpace.sliceSimple
    rw [if_neg (by have := get?_some_lt hpg; omega)]
    simp only [hpg]
    have hoo : pageOffset start ≤ pageOffset stop := by
      rw [hsame] at hdecS
      simp only [PAGE_SIZE] at hdecS hdecE
      omega
    rw [if_neg (by omega)]
    refine ⟨_, rfl, ?_, ?_⟩
    · rw [List.length_take, List.length_drop, pg.property]
      rw [hsame] at hdecS
      simp only [PAGE_SIZE] at hdecS hdecE hoS hoE ⊢
      omega
    · intro i hi
      rw [List.length_take, List.length_drop, pg.property] at hi
      have hi' : i < pageOffset stop - pageOffset start := by omega
      rw [List.getElem?_take_of_lt hi']
      have hcov := coversRange_drop hpg (pageOffset start) i
        (by
          rw [List.length_drop, pg.property]
          have : pageOffset stop ≤ PAGE_SIZE := Nat.le_of_lt hoE
          omega)
      rw [show PAGE_SIZE * page start + pageOffset start + i = start + i from by
        rw [page_decomp start]] at hcov
      exact hcov
  · rw [if_neg hsame]
    have hplt : page start < page stop := lt_of_le_of_ne (page_mono hle) hsame
    have hss : start < stop := by
      rcases Nat.lt_or_ge start stop with h | h
      · exact h
      · have heq : start = stop := by omega
        rw [heq] at hsame
        exact absurd rfl hsame
    have hmax : max start (stop - 1) = stop - 1 := by omega
    rw [hmax] at hmap
    have hend := endPage_eq hss
    have hm1 : page start ≤ page (stop - 1) := page_mono (by omega)
    have hm2 : page (stop - 1) ≤ page stop := page_mono (by omega)
    have hge : page stop - 1 ≤ page (stop - 1) := by
      rw [← hend]
      split <;> omega
    unfold DenseAddressSpace.sliceSplit
    have hcap : ¬ (page stop > d.pages.length) := by
      have := mappedPage_lt (hmap (page (stop - 1)) hm1 le_rfl)
      omega
    rw [if_neg hcap, hend]
    have hchk : checkPages d
        (List.range' (page start) (page (stop - 1) - page start)) = .ok () :=
      checkPages_ok (by
        intro q hq
        rw [List.mem_range'] at hq
        obtain ⟨i, hilt, rfl⟩ := hq
        exact hmap _ (by omega) (by omega))
    obtain ⟨pgS, hpgS⟩ := hmap (page start) le_rfl hm1
    obtain ⟨r2, hr2, hlen2, hpt2⟩ := collectPages_ok
      d (List.range' (page start + 1) (page stop - (page start + 1)))
      (by
        intro q hq
        rw [List.mem_range'] at hq
        obtain ⟨i, hilt, rfl⟩ := hq
        exact hmap _ (by omega) (by omega))
    simp only [hchk, hpgS, regionTwo_eq hplt, hr2]
    rw [List.length_range'] at hlen2 hpt2
    have hcov1 : coversRange d (pgS.val.drop (pageOffset start)) start := by
      have h := coversRange_drop hpgS (pageOffset start)
      rw [page_decomp start] at h
      exact h
    have hcov2 : coversRange d r2 (PAGE_SIZE * (page start + 1)) :=
      coversRange_collect hlen2 hpt2
    have hlen1 : (pgS.val.drop (pageOffset start)).length = PAGE_SIZE - pageOffset start := by
      rw [List.length_drop, pgS.property]
    have hstart1 : start + (pgS.val.drop (pageOffset start)).length =
        PAGE_SIZE * (page start + 1) := by
      rw [hlen1]
      simp only [PAGE_SIZE] at hdecS hoS ⊢
      omega
    by_cases h0 : pageOffset stop = 0
    · rw [if_neg (not_not_intro h0)]
      refine ⟨_, rfl, ?_, ?_⟩
      · rw [List.length_append, hlen1, hlen2]
        simp only [PAGE_SIZE] at hdecS hdecE hoS hoE ⊢
        omega
      · have hfull : coversRange d
            (List.drop (pageOffset start) pgS.val ++ r2) start :=
          coversRange_append hcov1 (by rw [hstart1]; exact hcov2)
        exact hfull
    · rw [if_pos h0]
      have hpe : page (stop - 1) = page stop := by
        rw [← hend, if_neg h0]
      obtain ⟨pgE, hpgE⟩ := hmap (page stop) (by omega) (by omega)
      rw [hpgE]
      have hcov3 : coversRange d (pgE.val.take (pageOffset stop)) (PAGE_SIZE * page stop) :=
        coversRange_take hpgE (pageOffset stop)
      refine ⟨_, rfl, ?_, ?_⟩
      · rw [List.length_append, List.length_append, hlen1, hlen2, List.length_take,
          pgE.property]
        simp only [PAGE_SIZE] at hdecS hdecE hoS hoE ⊢
        omega
      · have h12 : coversRange d (List.drop (pageOffset start) pgS.val ++ r2) start :=
          coversRange_append hcov1 (by rw [hstart1]; exact hcov2)
        have haddr3 : start + (List.drop (pageOffset start) pgS.val ++ r2).length =
            PAGE_SIZE * page stop := by
          rw [List.length_append, hlen1, hlen2]
          simp only [PAGE_SIZE] at hdecS hdecE hoS hoE ⊢
          omega
        have hfull : coversRange d
            ((List.drop (pageOffset start) pgS.val ++ r2) ++
              List.take (pageOffset stop) pgE.val) start :=
          coversRange_append h12 (by rw [haddr3]; exact hcov3)
        exact hfull

end Aspace

namespace Aspace

variable {T : Type}

/-- Failure of `slice`: an absent page strictly between the first and the
last touched page makes `slice` return `NotMapped` (the probe loop covers
exactly those pages). -/
lemma slice_notMapped_of_absent (d : DenseAddressSpace T) (start stop : Nat)
    (hle : start ≤ stop)
    (habs : ∃ p, page start < p ∧ p < page (stop - 1) ∧ ¬ mappedPage d p) :
    d.slice start stop = .error .notMapped := by
  obtain ⟨p, hp1, hp2, hp3⟩ := habs
  have hm2 : page (stop - 1) ≤ page stop := page_mono (by omega)
  have hss : start < stop := by
    rcases Nat.lt_or_ge start stop with h | h
    · exact h
    · have heq : stop = start := by omega
      subst heq
      have := page_mono (show stop - 1 ≤ stop from by omega)
      omega
  have hsame : page start ≠ page stop := by omega
  unfold DenseAddressSpace.slice
  rw [if_neg (by omega), if_neg hsame]
  unfold DenseAddressSpace.sliceSplit
  by_cases hcap : page stop > d.pages.length
  · rw [if_pos hcap]
  · rw [if_neg hcap, endPage_eq hss]
    have hchk : checkPages d
        (List.range' (page start) (page (stop - 1) - page start)) =
          .error .notMapped := by
      apply checkPages_notMapped
      · intro q hq
        rw [List.mem_range'] at hq
        obtain ⟨i, hilt, rfl⟩ := hq
        omega
      · refine ⟨p, ?_, hp3⟩
        rw [List.mem_range']
        exact ⟨p - page start, by omega, by omega⟩
    rw [hchk]

end Aspace

/-- C2: for `start ≤ end` with every touched page mapped (the page of `start`
through the page of `end - 1`), `slice(start, end)` returns exactly
`end - start` items concatenated in address order (item `i` is what `get`
yields at `start + i`); it fails with `NotMapped` whenever a page strictly
between the first and last touched page is absent; and when `end` falls
exactly on a page boundary the page AFTER `end` need not be mapped for the
call to succeed. -/
theorem c2_slice_spec :
    (∀ (d : Aspace.DenseAddressSpace Nat) (start stop : Nat), start ≤ stop →
      (∀ p, Aspace.page start ≤ p → p ≤ Aspace.page (max start (stop - 1)) →
        Aspace.mappedPage d p) →
      ∃ l, d.slice start stop = .ok l ∧ l.length = stop - start ∧
        ∀ i, i < l.length → d.get (start + i) = some (l[i]?)) ∧
    (∀ (d : Aspace.DenseAddressSpace Nat) (start stop : Nat), start ≤ stop →
      (∃ p, Aspace.page start < p ∧ p < Aspace.page (stop - 1) ∧
        ¬ Aspace.mappedPage d p) →
      d.slice start stop = .error .notMapped) ∧
    (∀ (d : Aspace.DenseAddressSpace Nat) (start stop : Nat), start ≤ stop →
      Aspace.pageOffset stop = 0 →
      ¬ Aspace.mappedPage d (Aspace.page stop) →
      (∀ p, Aspace.page start ≤ p → p ≤ Aspace.page (max start (stop - 1)) →
        Aspace.mappedPage d p) →
      ∃ l, d.slice start stop = .ok l ∧ l.length = stop - start) := by
  refine ⟨?_, ?_, ?_⟩
  · intro d start stop hle hmap
    obtain ⟨l, hsl, hlen, hcov⟩ := Aspace.slice_ok_of_mapped d start stop hle hmap
    exact ⟨l, hsl, hlen, fun i hi => hcov i hi⟩
  · intro d start stop hle habs
    exact Aspace.slice_notMapped_of_absent d start stop hle habs
  · intro d start stop hle _ _ hmap
    obtain ⟨l, hsl, hlen, _⟩ := Aspace.slice_ok_of_mapped d start stop hle hmap
    exact ⟨l, hsl, hlen⟩

/-- A one-page address space: page 0 mapped (all zero bytes), page 1 absent. -/
def onePageAspace : Aspace.DenseAddressSpace Nat :=
  ⟨[some ⟨List.replicate Aspace.PAGE_SIZE 0, List.length_replicate _ _⟩, none]⟩

/-- C2 (witness): on the one-page space, `slice(0, 0x1000)` — whose end sits
exactly on the boundary of the absent page 1 — succeeds with 0x1000 items,
and `slice(0, 2)` reads the two first bytes through `get`. -/
theorem c2_slice_spec_witness :
    ((onePageAspace.slice 0 0x1000).isOk = true) ∧
      ((onePageAspace.slice 0 2).isOk = true) := by
  constructor
  · obtain ⟨l, hsl, -⟩ := c2_slice_spec.2.2 onePageAspace 0 0x1000 (by omega)
      (by decide)
      (by
        intro hm
        obtain ⟨pg, hpg⟩ := hm
        simp [onePageAspace, show Aspace.page 0x1000 = 1 from rfl] at hpg)
      (by
        intro p h0 hp
        have hp0 : p = 0 := by
          have : Aspace.page (max 0 (0x1000 - 1)) = 0 := by decide
          omega
        subst hp0
        exact ⟨_, rfl⟩)
    rw [hsl]
    rfl
  · obtain ⟨l, hsl, -, -⟩ := c2_slice_spec.1 onePageAspace 0 2 (by omega)
      (by
        intro p h0 hp
        have hp0 : p = 0 := by
          have : Aspace.page (max 0 (2 - 1)) = 0 := by decide
          omega
        subst hp0
        exact ⟨_, rfl⟩)
    rw [hsl]
    rfl

/-! ## Workspace façade (`src/core/src/workspace.rs`) -/

namespace Cws

/-- `Permissions`: the {R, W, X} bit field from `src/core/src/loader.rs`
(declared there; only its bit-test behaviour is needed here). -/
structure Permissions where
  r : Bool
  w : Bool
  x : Bool
  deriving DecidableEq, Repr

/-- `Permissions::R`. -/
def Permissions.R : Permissions := ⟨true, false, false⟩

/-- `Workspace`, restricted to the pieces `probe` and `read_bytes` read:
the module's address space, and `get_meta` — modelled from the spec (§4.2)
as a map from RVA to optional flow metadata, the flow-metadata store not
being among the provided sources. -/
structure Workspace (T : Type) where
  address_space : Aspace.DenseAddressSpace T
  meta : Nat → Option Unit

/-- Failure kinds of the read helpers: the source's
`WorkspaceError::InvalidAddress`, plus the panic marker. -/
inductive WsError where
  | invalidAddress
  | panic
  deriving DecidableEq, Repr

/-- `Workspace::probe` from `src/core/src/workspace.rs`: when X is requested,
both `rva` and `rva + length` must have flow metadata; when R is requested,
both `rva` and `rva + length` must be mapped in the address space.  Note the
second probe is at `rva + length`, one past the last requested byte. -/
def Workspace.probe {T : Type} (ws : Workspace T) (rva length_ : Nat)
    (perms : Permissions) : Option Bool :=
  if perms.x && !((ws.meta rva).isSome && (ws.meta (rva + length_)).isSome) then
    some false
  else if perms.r then
    match ws.address_space.probe rva with
    | none => none
    | some false => some false
    | some true =>
      match ws.address_space.probe (rva + length_) with
      | none => none
      | some b => some b
  else
    some true

/-- `Workspace::read_bytes`: `slice(rva, rva + length)`, with `NotMapped`
mapped to `InvalidAddress`. -/
def Workspace.read_bytes {T : Type} (ws : Workspace T) (rva length_ : Nat) :
    Except WsError (List T) :=
  match ws.address_space.slice rva (rva + length_) with
  | .ok l => .ok l
  | .error .notMapped => .error .invalidAddress
  | .error .panic => .error .panic

end Cws

/-- A workspace over the one-page address space (no flow metadata). -/
def onePageWorkspace : Cws.Workspace Nat :=
  ⟨onePageAspace, fun _ => none⟩

/-- C10: `probe(rva, length, R)` demands that both `rva` and `rva + length`
(one past the last requested byte) be mapped; consequently, on a module whose
image is exactly one page, the readable range `[0, 0x1000)` that ends at the
end of the image reports `false` from `probe` even though `read_bytes` over
the same range succeeds with all 0x1000 bytes. -/
theorem c10_probe_off_by_one :
    (∀ (ws : Cws.Workspace Nat) (rva len : Nat) (b1 b2 : Bool),
      ws.address_space.probe rva = some b1 →
      ws.address_space.probe (rva + len) = some b2 →
      ws.probe rva len Cws.Permissions.R = some (b1 && b2)) ∧
    (onePageWorkspace.probe 0 0x1000 Cws.Permissions.R = some false ∧
      ∃ l, onePageWorkspace.read_bytes 0 0x1000 = .ok l ∧ l.length = 0x1000) := by
  constructor
  · intro ws rva len b1 b2 h1 h2
    unfold Cws.Workspace.probe
    simp only [Cws.Permissions.R, Bool.false_and, Bool.false_eq_true, if_false, if_true]
    rw [h1]
    cases b1 with
    | false => rfl
    | true =>
      rw [h2]
      rfl
  · constructor
    · rfl
    · obtain ⟨l, hsl, hlen, -⟩ := Aspace.slice_ok_of_mapped onePageAspace 0 0x1000
        (by omega)
        (by
          intro p h0 hp
          have hp0 : p = 0 := by
            have : Aspace.page (max 0 (0x1000 - 1)) = 0 := by decide
            omega
          subst hp0
          exact ⟨_, rfl⟩)
      refine ⟨l, ?_, by omega⟩
      unfold Cws.Workspace.read_bytes
      show (match onePageWorkspace.address_space.slice 0 (0 + 0x1000) with
        | .ok l => .ok l
        | .error .notMapped => .error .invalidAddress
        | .error .panic => .error .panic) = Except.ok l
      rw [show onePageWorkspace.address_space = onePageAspace from rfl,
        show (0 + 0x1000 : Nat) = 0x1000 from rfl, hsl]

/-- C10 (witness): the general probe characterization applied on the one-page
workspace at `rva = 0`, `length = 0x1000`, where the first probe is true and
the second false. -/
theorem c10_probe_off_by_one_witness :
    onePageWorkspace.probe 0 0x1000 Cws.Permissions.R = some (true && false) :=
  c10_probe_off_by_one.1 onePageWorkspace 0 0x1000 true false rfl rfl

/-! ## Legacy workspace xref graph (`src/src/lib.rs`) -/

namespace Legacy

/-- `XrefType` from `src/src/lib.rs`. -/
inductive XrefType where
  | fallthrough
  | call
  | unconditionalJump
  | conditionalJump
  | conditionalMove
  deriving DecidableEq, Repr

/-- `Xref { src, dst, typ }`. -/
structure Xref where
  src : Nat
  dst : Nat
  typ : XrefType
  deriving DecidableEq, Repr

/-- `Xrefs { from, to }` (`from` is a Lean keyword, hence `fromList`). -/
structure Xrefs where
  fromList : List Xref
  toList : List Xref
  deriving DecidableEq, Repr

/-- `Location { addr, xrefs }`. -/
structure Location where
  addr : Nat
  xrefs : Xrefs
  deriving DecidableEq, Repr

/-- `Section`, restricted to what the xref graph uses: its RVA and its
per-byte `locs` vector.  In the source `contains` tests against `buf.len()`
and indexing uses `locs`; both vectors are built with the same
`virtual_size` length, so one list serves for both here. -/
structure Section where
  addr : Nat
  locs : List Location
  deriving Repr

/-- `Section::contains`. -/
def Section.containsRva (s : Section) (rva : Nat) : Bool :=
  decide (s.addr ≤ rva) && decide (rva < s.addr + s.locs.length)

/-- `Workspace`, restricted to its sections. -/
structure Workspace where
  sections : List Section
  deriving Repr

/-- Replace the element at index `i` by `f` of it (used for the in-place
mutation of one `Location`). -/
def modifyAt {α : Type} (f : α → α) : List α → Nat → List α
  | [], _ => []
  | a :: as_, 0 => f a :: as_
  | a :: as_, i + 1 => a :: modifyAt f as_ i

/-- Apply `f` to the `Location` of `rva` inside the FIRST section containing
`rva` (the `get_loc_mut` + mutation path of `add_xref`); when no section
contains `rva`, the workspace is unchanged (the `if let Ok(..)` falls
through). -/
def updateLoc (f : Location → Location) : List Section → Nat → List Section
  | [], _ => []
  | s :: rest, rva =>
    if s.containsRva rva then
      { s with locs := modifyAt f s.locs (rva - s.addr) } :: rest
    else
      s :: updateLoc f rest rva

/-- `Workspace::get_loc` (read-only): the `Location` of `rva` in the first
containing section. -/
def Workspace.get_loc (ws : Workspace) (rva : Nat) : Option Location :=
  match ws.sections.find? (fun s => s.containsRva rva) with
  | none => none
  | some s => s.locs[rva - s.addr]?

/-- `Workspace::add_xref`: push onto `xrefs.to` of the destination's location
(when the destination is in some section), then push onto `xrefs.from` of the
source's location (when the source is in some section). -/
def Workspace.add_xref (ws : Workspace) (x : Xref) : Workspace :=
  let ws1 : Workspace :=
    ⟨updateLoc (fun loc => { loc with xrefs := { loc.xrefs with toList := loc.xrefs.toList ++ [x] } })
      ws.sections x.dst⟩
  ⟨updateLoc (fun loc => { loc with xrefs := { loc.xrefs with fromList := loc.xrefs.fromList ++ [x] } })
    ws1.sections x.src⟩

/-- `xrefs_from(s)`: the `from` list at `s`. -/
def Workspace.xrefs_from (ws : Workspace) (rva : Nat) : Option (List Xref) :=
  (ws.get_loc rva).map fun loc => loc.xrefs.fromList

/-- `xrefs_to(d)`: the `to` list at `d`. -/
def Workspace.xrefs_to (ws : Workspace) (rva : Nat) : Option (List Xref) :=
  (ws.get_loc rva).map fun loc => loc.xrefs.toList

end Legacy

namespace Legacy

lemma modifyAt_length {α : Type} (f : α → α) (l : List α) (i : Nat) :
    (modifyAt f l i).length = l.length := by
  induction l generalizing i with
  | nil => rfl
  | cons a as_ ih =>
    cases i with
    | zero => rfl
    | succ i => simp [modifyAt, ih]

lemma modifyAt_getElem {α : Type} (f : α → α) (l : List α) (i j : Nat) :
    (modifyAt f l i)[j]? = if i = j then (l[j]?).map f else l[j]? := by
  induction l generalizing i j with
  | nil => simp [modifyAt]
  | cons a as_ ih =>
    cases i with
    | zero =>
      cases j with
      | zero => simp [modifyAt]
      | succ j => simp [modifyAt]
    | succ i =>
      cases j with
      | zero => simp [modifyAt]
      | succ j =>
        simp only [modifyAt, List.getElem?_cons_succ, ih]
        by_cases h : i = j <;> simp [h]

lemma containsRva_modify (s : Section) (f : Location → Location) (i rva : Nat) :
    Section.containsRva { s with locs := modifyAt f s.locs i } rva =
      s.containsRva rva := by
  unfold Section.containsRva
  rw [modifyAt_length]

/-- Effect of `updateLoc` on `get_loc`: the location at `b` (when any) gets
`f` applied; every other location is untouched. -/
lemma get_loc_update (f : Location → Location) (ss : List Section) (b a : Nat)
    (loc : Location) (h : Workspace.get_loc ⟨ss⟩ a = some loc) :
    Workspace.get_loc ⟨updateLoc f ss b⟩ a = some (if b = a then f loc else loc) := by
  induction ss with
  | nil => exact absurd h (by simp [Workspace.get_loc, List.find?])
  | cons s rest ih =>
    unfold Workspace.get_loc at h ⊢
    dsimp only at h ⊢
    simp only [updateLoc]
    by_cases hb : s.containsRva b
    · rw [if_pos hb]
      by_cases ha : s.containsRva a
      · rw [List.find?_cons_of_pos (p := fun t : Section => t.containsRva a) _ ha] at h
        rw [List.find?_cons_of_pos (p := fun t : Section => t.containsRva a) _
          (by show Section.containsRva _ a = true; rw [containsRva_modify]; exact ha)]
        dsimp only at h ⊢
        rw [modifyAt_getElem]
        unfold Section.containsRva at ha hb
        simp only [Bool.and_eq_true, decide_eq_true_eq] at ha hb
        by_cases hba : b = a
        · subst hba
          rw [if_pos rfl, if_pos rfl, h]
          rfl
        · rw [if_neg (by omega), if_neg hba]
          exact h
      · rw [List.find?_cons_of_neg (p := fun t : Section => t.containsRva a) _ ha] at h
        rw [List.find?_cons_of_neg (p := fun t : Section => t.containsRva a) _
          (by show ¬ Section.containsRva _ a = true; rw [containsRva_modify]; exact ha)]
        have hba : b ≠ a := fun heq => ha (heq ▸ hb)
        rw [if_neg hba]
        exact h
    · rw [if_neg hb]
      by_cases ha : s.containsRva a
      · rw [List.find?_cons_of_pos (p := fun t : Section => t.containsRva a) _ ha] at h
        rw [List.find?_cons_of_pos (p := fun t : Section => t.containsRva a) _ ha]
        have hba : b ≠ a := fun heq => hb (heq ▸ ha)
        rw [if_neg hba]
        exact h
      · rw [List.find?_cons_of_neg (p := fun t : Section => t.containsRva a) _ ha] at h
        rw [List.find?_cons_of_neg (p := fun t : Section => t.containsRva a) _ ha]
        exact ih h

/-- Effect of one `add_xref` on a location: `[x]` is appended to the `from`
list when the location is the xref's source, and to the `to` list when it is
the destination. -/
lemma add_xref_get_loc (ws : Workspace) (x : Xref) (a : Nat) (loc : Location)
    (h : ws.get_loc a = some loc) :
    (ws.add_xref x).get_loc a = some
      { addr := loc.addr,
        xrefs := { fromList := loc.xrefs.fromList ++ (if x.src == a then [x] else []),
                   toList := loc.xrefs.toList ++ (if x.dst == a then [x] else []) } } := by
  unfold Workspace.add_xref
  have h1 := get_loc_update
    (fun loc => { loc with xrefs := { loc.xrefs with toList := loc.xrefs.toList ++ [x] } })
    ws.sections x.dst a loc h
  have h2 := get_loc_update
    (fun loc => { loc with xrefs := { loc.xrefs with fromList := loc.xrefs.fromList ++ [x] } })
    _ x.src a _ h1
  rw [h2]
  by_cases hsa : x.src = a <;> by_cases hda : x.dst = a <;>
    simp [hsa, hda]

/-- Effect of a whole insertion sequence on a location: the `from` list grows
by the inserted xrefs whose source is the location, in order, and the `to`
list by those whose destination it is. -/
lemma foldl_add_xref_get_loc (xs : List Xref) (ws : Workspace) (a : Nat)
    (loc : Location) (h : ws.get_loc a = some loc) :
    (xs.foldl Workspace.add_xref ws).get_loc a = some
      { addr := loc.addr,
        xrefs := { fromList := loc.xrefs.fromList ++ xs.filter (fun x => x.src == a),
                   toList := loc.xrefs.toList ++ xs.filter (fun x => x.dst == a) } } := by
  induction xs generalizing ws loc with
  | nil =>
    simpa using h
  | cons x xs ih =>
    simp only [List.foldl_cons]
    have hx := add_xref_get_loc ws x a loc h
    have := ih _ _ hx
    rw [this]
    simp only [List.filter_cons]
    by_cases hsa : (fun y => y.src == a) x = true <;>
      by_cases hda : (fun y => y.dst == a) x = true <;>
        simp_all

end Legacy

/-- A legacy workspace with one section at RVA 0 holding two empty locations. -/
def wsTwoLocs : Legacy.Workspace :=
  ⟨[⟨0, [⟨0, ⟨[], []⟩⟩, ⟨1, ⟨[], []⟩⟩]⟩]⟩

/-- The xref 0 → 1 (Call). -/
def xref0 : Legacy.Xref := ⟨0, 1, .call⟩

/-- C9 (counterexample): `add_xref` is a plain `Vec::push` with no
deduplication, so inserting the same xref twice makes it appear twice in
`xrefs_from` of its source (and twice in `xrefs_to` of its destination),
violating the claim's "exactly once in each endpoint's list" for a sequence
of insertions that repeats a triple. -/
theorem c9_duplicate_insert_counterexample :
    ((wsTwoLocs.add_xref xref0).add_xref xref0).xrefs_from 0 =
        some [xref0, xref0] ∧
      ((wsTwoLocs.add_xref xref0).add_xref xref0).xrefs_to 1 =
        some [xref0, xref0] := by
  exact ⟨rfl, rfl⟩

/-- C9 (amended): after inserting a sequence of PAIRWISE-DISTINCT xrefs whose
endpoints all lie inside some section, the graph is symmetric — every xref in
`xrefs_from(s)` has a matching entry in `xrefs_to(d)` and vice versa — and
each inserted xref appears exactly once in each of its endpoints' lists.
(Duplicated insertions and xrefs with an endpoint outside every section
violate the claim, as the counterexample shows for duplicates.) -/
theorem c9_xref_symmetry_amended (w : Legacy.Workspace) (xs : List Legacy.Xref)
    (hempty : ∀ a loc, w.get_loc a = some loc →
      loc.xrefs.fromList = [] ∧ loc.xrefs.toList = [])
    (hnodup : xs.Nodup)
    (hvalid : ∀ x ∈ xs, (w.get_loc x.src).isSome ∧ (w.get_loc x.dst).isSome) :
    (∀ x ∈ xs, ∃ ls ld,
      (xs.foldl Legacy.Workspace.add_xref w).get_loc x.src = some ls ∧
        (xs.foldl Legacy.Workspace.add_xref w).get_loc x.dst = some ld ∧
        ls.xrefs.fromList.count x = 1 ∧ ld.xrefs.toList.count x = 1) ∧
    (∀ a loc, (xs.foldl Legacy.Workspace.add_xref w).get_loc a = some loc →
      (∀ x ∈ loc.xrefs.fromList, x.src = a ∧ x ∈ xs ∧
        ∃ ld, (xs.foldl Legacy.Workspace.add_xref w).get_loc x.dst = some ld ∧
          x ∈ ld.xrefs.toList) ∧
      (∀ x ∈ loc.xrefs.toList, x.dst = a ∧ x ∈ xs ∧
        ∃ ls, (xs.foldl Legacy.Workspace.add_xref w).get_loc x.src = some ls ∧
          x ∈ ls.xrefs.fromList)) := by
  have hchar : ∀ a loc0, w.get_loc a = some loc0 →
      (xs.foldl Legacy.Workspace.add_xref w).get_loc a = some
        { addr := loc0.addr,
          xrefs := { fromList := xs.filter (fun x => x.src == a),
                     toList := xs.filter (fun x => x.dst == a) } } := by
    intro a loc0 h0
    have h := Legacy.foldl_add_xref_get_loc xs w a loc0 h0
    obtain ⟨hfe, hte⟩ := hempty a loc0 h0
    rw [hfe, hte] at h
    simpa using h
  have hdom : ∀ a loc, (xs.foldl Legacy.Workspace.add_xref w).get_loc a = some loc →
      loc.xrefs.fromList = xs.filter (fun x => x.src == a) ∧
        loc.xrefs.toList = xs.filter (fun x => x.dst == a) := by
    intro a loc h
    cases h0 : w.get_loc a with
    | none =>
      exfalso
      revert h
      suffices hsuff : ∀ (ys : List Legacy.Xref) (v : Legacy.Workspace),
          v.get_loc a = none →
          (ys.foldl Legacy.Workspace.add_xref v).get_loc a = none by
        intro h
        rw [hsuff xs w h0] at h
        exact Option.noConfusion h
      intro ys
      induction ys with
      | nil => intro v hv; exact hv
      | cons y ys ih =>
        intro v hv
        apply ih
        -- add_xref preserves absence at `a`
        unfold Legacy.Workspace.add_xref
        have hnone : ∀ (f : Legacy.Location → Legacy.Location) (ss : List Legacy.Section)
            (b : Nat), Legacy.Workspace.get_loc ⟨ss⟩ a = none →
            Legacy.Workspace.get_loc ⟨Legacy.updateLoc f ss b⟩ a = none := by
          intro f ss b hss
          induction ss with
          | nil => exact hss
          | cons s rest ih2 =>
            unfold Legacy.Workspace.get_loc at hss ⊢
            dsimp only at hss ⊢
            simp only [Legacy.updateLoc]
            by_cases hcb : s.containsRva b
            · rw [if_pos hcb]
              by_cases hca : s.containsRva a
              · rw [List.find?_cons_of_pos (p := fun t : Legacy.Section =>
                  t.containsRva a) _ hca] at hss
                rw [List.find?_cons_of_pos (p := fun t : Legacy.Section =>
                  t.containsRva a) _
                  (by
                    show Legacy.Section.containsRva _ a = true
                    rw [Legacy.containsRva_modify]
                    exact hca)]
                dsimp only at hss ⊢
                rw [Legacy.modifyAt_getElem]
                split
                · rw [hss]
                  rfl
                · exact hss
              · rw [List.find?_cons_of_neg (p := fun t : Legacy.Section =>
                  t.containsRva a) _ hca] at hss
                rw [List.find?_cons_of_neg (p := fun t : Legacy.Section =>
                  t.containsRva a) _
                  (by
                    show ¬ Legacy.Section.containsRva _ a = true
                    rw [Legacy.containsRva_modify]
                    exact hca)]
                exact hss
            · rw [if_neg hcb]
              by_cases hca : s.containsRva a
              · rw [List.find?_cons_of_pos (p := fun t : Legacy.Section =>
                  t.containsRva a) _ hca] at hss ⊢
                exact hss
              · rw [List.find?_cons_of_neg (p := fun t : Legacy.Section =>
                  t.containsRva a) _ hca] at hss ⊢
                exact ih2 hss
        exact hnone _ _ _ (hnone _ _ _ hv)
    | some loc0 =>
      have := hchar a loc0 h0
      rw [this] at h
      injection h with h
      rw [← h]
      exact ⟨rfl, rfl⟩
  constructor
  · intro x hx
    obtain ⟨hsrc, hdst⟩ := hvalid x hx
    obtain ⟨lsrc, hlsrc⟩ := Option.isSome_iff_exists.mp hsrc
    obtain ⟨ldst, hldst⟩ := Option.isSome_iff_exists.mp hdst
    refine ⟨_, _, hchar _ _ hlsrc, hchar _ _ hldst, ?_, ?_⟩
    · simp only
      rw [List.count_filter (by simp)]
      exact List.count_eq_one_of_mem hnodup hx
    · simp only
      rw [List.count_filter (by simp)]
      exact List.count_eq_one_of_mem hnodup hx
  · intro a loc h
    obtain ⟨hf, ht⟩ := hdom a loc h
    constructor
    · intro x hxf
      rw [hf, List.mem_filter] at hxf
      obtain ⟨hxs, hsa⟩ := hxf
      have hsa' : x.src = a := by simpa using hsa
      obtain ⟨-, hdst⟩ := hvalid x hxs
      obtain ⟨ldst, hldst⟩ := Option.isSome_iff_exists.mp hdst
      refine ⟨hsa', hxs, _, hchar _ _ hldst, ?_⟩
      simp only
      rw [List.mem_filter]
      exact ⟨hxs, by simp⟩
    · intro x hxt
      rw [ht, List.mem_filter] at hxt
      obtain ⟨hxs, hda⟩ := hxt
      have hda' : x.dst = a := by simpa using hda
      obtain ⟨hsrc, -⟩ := hvalid x hxs
      obtain ⟨lsrc, hlsrc⟩ := Option.isSome_iff_exists.mp hsrc
      refine ⟨hda', hxs, _, hchar _ _ hlsrc, ?_⟩
      simp only
      rw [List.mem_filter]
      exact ⟨hxs, by simp⟩

/-- C9 (witness): on the two-location workspace, inserting the single xref
0 → 1 yields it exactly once in `from` of 0 and once in `to` of 1. -/
theorem c9_xref_symmetry_amended_witness :
    ∃ ls ld,
      ([xref0].foldl Legacy.Workspace.add_xref wsTwoLocs).get_loc xref0.src = some ls ∧
        ([xref0].foldl Legacy.Workspace.add_xref wsTwoLocs).get_loc xref0.dst = some ld ∧
        ls.xrefs.fromList.count xref0 = 1 ∧ ld.xrefs.toList.count xref0 = 1 := by
  have hempty : ∀ a loc, wsTwoLocs.get_loc a = some loc →
      loc.xrefs.fromList = [] ∧ loc.xrefs.toList = [] := by
    intro a loc h
    rcases Nat.lt_or_ge a 2 with ha | ha
    · interval_cases a
      · rw [show wsTwoLocs.get_loc 0 = some ⟨0, ⟨[], []⟩⟩ from rfl] at h
        cases h
        exact ⟨rfl, rfl⟩
      · rw [show wsTwoLocs.get_loc 1 = some ⟨1, ⟨[], []⟩⟩ from rfl] at h
        cases h
        exact ⟨rfl, rfl⟩
    · have hnone : wsTwoLocs.get_loc a = none := by
        unfold wsTwoLocs Legacy.Workspace.get_loc
        rw [List.find?_cons_of_neg (p := fun t : Legacy.Section => t.containsRva a) _
          (by
            show ¬ Legacy.Section.containsRva _ a = true
            simp [Legacy.Section.containsRva]
            omega)]
        rfl
      rw [hnone] at h
      exact Option.noConfusion h
  exact (c9_xref_symmetry_amended wsTwoLocs [xref0] hempty (by simp)
    (by
      intro x hx
      rw [List.mem_singleton] at hx
      subst hx
      exact ⟨rfl, rfl⟩)).1 xref0 (by simp)

/-! ## Basic-block recovery (`src/core/src/workspace.rs`, `get_basic_blocks`) -/

namespace Bb

/-- `XrefType` (core): the five edge kinds matched in `get_basic_blocks`. -/
inductive XrefType where
  | fallthrough
  | call
  | unconditionalJump
  | conditionalJump
  | conditionalMove
  deriving DecidableEq, Repr

/-- An xref as consumed by `get_basic_blocks` (its `dst` and `typ` fields). -/
structure Xref where
  src : Nat
  dst : Nat
  typ : XrefType
  deriving DecidableEq, Repr

/-- Modelled from the spec: the flow-metadata store (§4.2) and xref graph
(§4.3) accessors used by `get_basic_blocks` — `get_insn_length`,
`get_xrefs_from`, `get_xrefs_to` — whose defining module is not among the
provided sources.  `insnLength a = none` models a `get_insn_length` that
returns `Err`; `dom`/`hdom` say metadata exists only below a bound (the
address space is finite) and `hlen` that recorded lengths are ≥ 1
(spec §3: `insn_length: 1..=15`). -/
structure Flow where
  insnLength : Nat → Option Nat
  xrefsFrom : Nat → List Xref
  xrefsTo : Nat → List Xref
  dom : Nat
  hdom : ∀ a, dom ≤ a → insnLength a = none
  hlen : ∀ a l, insnLength a = some l → 0 < l

/-- `has_fallthrough`: some xref-from of kind Fallthrough. -/
def hasFallthrough (fl : Flow) (i : Nat) : Bool :=
  (fl.xrefsFrom i).any fun x => x.typ == .fallthrough

/-- The destinations pushed by the xref loop: xrefs-from of kind
UnconditionalJump / ConditionalJump / ConditionalMove, in order. -/
def flowDsts (fl : Flow) (i : Nat) : List Nat :=
  (fl.xrefsFrom i).filterMap fun x =>
    match x.typ with
    | .unconditionalJump => some x.dst
    | .conditionalJump => some x.dst
    | .conditionalMove => some x.dst
    | _ => none

/-- `has_flow_from`: some xref-from of a jump/cmov kind. -/
def hasFlowFrom (fl : Flow) (i : Nat) : Bool :=
  (fl.xrefsFrom i).any fun x =>
    match x.typ with
    | .unconditionalJump => true
    | .conditionalJump => true
    | .conditionalMove => true
    | _ => false

/-- `has_flow_to`: some xref-to of a jump/cmov kind at the fallthrough
target. -/
def hasFlowTo (fl : Flow) (n : Nat) : Bool :=
  (fl.xrefsTo n).any fun x =>
    match x.typ with
    | .unconditionalJump => true
    | .conditionalJump => true
    | .conditionalMove => true
    | _ => false

lemma insnLength_lt_dom {fl : Flow} {a len : Nat} (h : fl.insnLength a = some len) :
    a < fl.dom := by
  by_contra hge
  push_neg at hge
  rw [fl.hdom a hge] at h
  exact Option.noConfusion h

/-- The `'insns: loop` of `get_basic_blocks`, one basic block at a time:
`ins`/`succs` are the block's `insns` and `successors` vectors built so far
(`length` is not modelled; the `predecessors` field is only filled by the
separate inversion pass at the end, which touches nothing else).
Per iteration: `get_insn_length` (whose `Err` propagates), push the current
instruction, push the jump/cmov destinations, then the three-way exit test
from the source, falling through to the next instruction otherwise. -/
def walkBlockAux (fl : Flow) (cur : Nat) (ins succs : List Nat) :
    Except Unit (List Nat × List Nat) :=
  match hcur : fl.insnLength cur with
  | none => .error ()
  | some len =>
    if !(hasFallthrough fl cur) then
      .ok (ins ++ [cur], succs ++ flowDsts fl cur)
    else if hasFlowFrom fl cur then
      .ok (ins ++ [cur], succs ++ flowDsts fl cur ++ [cur + len])
    else if hasFlowTo fl (cur + len) then
      .ok (ins ++ [cur], succs ++ flowDsts fl cur ++ [cur + len])
    else
      walkBlockAux fl (cur + len) (ins ++ [cur]) (succs ++ flowDsts fl cur)
termination_by fl.dom - cur
decreasing_by
  have h1 : cur < fl.dom := insnLength_lt_dom hcur
  have h2 : 0 < len := fl.hlen cur len hcur
  omega

/-- One basic block starting at `entry` (the loop with empty accumulators). -/
def walkBlock (fl : Flow) (entry : Nat) : Except Unit (List Nat × List Nat) :=
  walkBlockAux fl entry [] []

end Bb

namespace Bb

/-- The claim's block-termination condition at instruction `i`:
(a) no fallthrough xref, or (b) non-fallthrough xrefs-from, or
(c) the fallthrough target has non-fallthrough xrefs-to. -/
def isTerminalB (fl : Flow) (i : Nat) : Bool :=
  match fl.insnLength i with
  | none => true
  | some len => !(hasFallthrough fl i) || hasFlowFrom fl i || hasFlowTo fl (i + len)

/-- The claim's block shape: the instruction list starts at the entry,
consecutive instructions follow each other by instruction length, every
non-final instruction is non-terminal, and the final one is terminal. -/
def blockShape (fl : Flow) : Nat → List Nat → Bool
  | _, [] => false
  | cur, [i] => (i == cur) && isTerminalB fl i
  | cur, i :: j :: rest =>
    (i == cur) && !(isTerminalB fl i) &&
      (match fl.insnLength i with
       | some len => blockShape fl (i + len) (j :: rest)
       | none => false)

/-- The claim's "non-Call xrefs-from" destinations of an instruction. -/
def nonCallDsts (fl : Flow) (i : Nat) : List Nat :=
  (fl.xrefsFrom i).filterMap fun x =>
    match x.typ with
    | .call => none
    | _ => some x.dst

/-- Did the source push the fallthrough address as a successor of the block's
final instruction (the (b)/(c) exits)? -/
def pushedNext (fl : Flow) (i len : Nat) : Bool :=
  hasFallthrough fl i && (hasFlowFrom fl i || hasFlowTo fl (i + len))

lemma flowDsts_nil_of_not_hasFlowFrom {fl : Flow} {i : Nat}
    (h : hasFlowFrom fl i = false) : flowDsts fl i = [] := by
  unfold hasFlowFrom at h
  unfold flowDsts
  rw [List.any_eq_false] at h
  rw [List.filterMap_eq_nil_iff]
  intro x hx
  have := h x hx
  cases htyp : x.typ <;> simp [htyp] at this ⊢

/-- Full characterization of the block walk: it appends to `ins` a
non-empty run of consecutive instructions starting at `cur` of which exactly
the last is terminal, and appends to `succs` the final instruction's
jump/cmov destinations plus, when the source pushed it, the fallthrough. -/
lemma walkBlockAux_spec (fl : Flow) :
    ∀ n cur ins succs p, fl.dom - cur = n →
      walkBlockAux fl cur ins succs = .ok p →
      ∃ body last len,
        p.1 = ins ++ body ∧
        blockShape fl cur body = true ∧
        body.getLast? = some last ∧
        fl.insnLength last = some len ∧
        isTerminalB fl last = true ∧
        p.2 = succs ++ flowDsts fl last ++
          (if pushedNext fl last len then [last + len] else []) := by
  intro n
  induction n using Nat.strong_induction_on with
  | _ n ih =>
    intro cur ins succs p hn hw
    obtain ⟨p1, p2⟩ := p
    rw [walkBlockAux] at hw
    split at hw
    · exact Except.noConfusion hw
    · rename_i len hcur
      have hterm : ∀ b, (!(hasFallthrough fl cur) || hasFlowFrom fl cur ||
          hasFlowTo fl (cur + len)) = b → isTerminalB fl cur = b := by
        intro b hb
        unfold isTerminalB
        rw [hcur]
        exact hb
      by_cases hFT : hasFallthrough fl cur
      · by_cases hFF : hasFlowFrom fl cur
        · -- exit (b): fallthrough plus non-fallthrough xrefs-from
          simp only [hFT, hFF, Bool.not_true, Bool.false_eq_true, if_false, if_true,
            Except.ok.injEq, Prod.mk.injEq] at hw
          obtain ⟨hw1, hw2⟩ := hw
          subst hw1
          subst hw2
          have ht : isTerminalB fl cur = true := hterm true (by rw [hFF]; simp)
          refine ⟨[cur], cur, len, rfl, ?_, rfl, hcur, ht, ?_⟩
          · unfold blockShape
            simp [ht]
          · have hpn : pushedNext fl cur len = true := by
              unfold pushedNext
              rw [hFT, hFF]
              rfl
            rw [hpn]
            simp
        · by_cases hTO : hasFlowTo fl (cur + len)
          · -- exit (c): fallthrough into a branch-join point
            simp only [hFT, hFF, hTO, Bool.not_true, Bool.false_eq_true, if_false,
              if_true, Except.ok.injEq, Prod.mk.injEq] at hw
            obtain ⟨hw1, hw2⟩ := hw
            subst hw1
            subst hw2
            have ht : isTerminalB fl cur = true := hterm true (by rw [hTO]; simp)
            refine ⟨[cur], cur, len, rfl, ?_, rfl, hcur, ht, ?_⟩
            · unfold blockShape
              simp [ht]
            · have hpn : pushedNext fl cur len = true := by
                unfold pushedNext
                rw [hFT, hTO]
                simp
              rw [hpn]
              simp
          · -- continue to the fallthrough instruction
            simp only [hFT, hFF, hTO, Bool.not_true, Bool.false_eq_true, if_false] at hw
            have hlt : cur < fl.dom := insnLength_lt_dom hcur
            have hpos : 0 < len := fl.hlen cur len hcur
            obtain ⟨body', last, len', h1, h2, h3, h4, h5, h6⟩ :=
              ih (fl.dom - (cur + len)) (by omega) (cur + len) (ins ++ [cur])
                (succs ++ flowDsts fl cur) (p1, p2) rfl hw
            have hnil : flowDsts fl cur = [] :=
              flowDsts_nil_of_not_hasFlowFrom (by rw [Bool.eq_false_iff]; exact hFF)
            have hbody' : body' ≠ [] := by
              intro hempty
              rw [hempty] at h3
              exact Option.noConfusion h3
            have hnt : isTerminalB fl cur = false := by
              apply hterm false
              rw [hFT]
              rw [show hasFlowFrom fl cur = false from by
                rw [Bool.eq_false_iff]; exact hFF]
              rw [show hasFlowTo fl (cur + len) = false from by
                rw [Bool.eq_false_iff]; exact hTO]
              rfl
            rcases body' with _ | ⟨j, rest⟩
            · exact absurd rfl hbody'
            · refine ⟨cur :: j :: rest, last, len', ?_, ?_, ?_, h4, h5, ?_⟩
              · simp only at h1
                rw [h1, List.append_assoc]
                rfl
              · unfold blockShape
                simp [hnt, hcur, h2]
              · rw [List.getLast?_cons_cons]
                exact h3
              · simp only at h6
                rw [h6, hnil]
                simp
      · -- exit (a): no fallthrough
        simp only [hFT, Bool.not_false, if_true, Except.ok.injEq, Prod.mk.injEq] at hw
        obtain ⟨hw1, hw2⟩ := hw
        subst hw1
        subst hw2
        have hFT' : hasFallthrough fl cur = false := by
          rw [Bool.eq_false_iff]
          exact hFT
        have ht : isTerminalB fl cur = true := hterm true (by rw [hFT']; rfl)
        refine ⟨[cur], cur, len, rfl, ?_, rfl, hcur, ht, ?_⟩
        · unfold blockShape
          simp [ht]
        · have hpn : pushedNext fl cur len = false := by
            unfold pushedNext
            rw [hFT']
            rfl
          rw [hpn]
          simp

end Bb

namespace Bb

lemma nodupBoundLen (l : List Nat) (n : Nat) (hnd : l.Nodup) (hlt : ∀ x ∈ l, x < n) :
    l.length ≤ n := by
  have hsub : l.toFinset ⊆ Finset.range n := by
    intro x hx
    exact Finset.mem_range.mpr (hlt x (List.mem_toFinset.mp hx))
  have hcard := Finset.card_le_card hsub
  rw [Finset.card_range, List.toFinset_card_of_nodup hnd] at hcard
  exact hcard

lemma walkBlockAux_ok_lt {fl : Flow} {cur : Nat} {ins succs : List Nat}
    {p : List Nat × List Nat} (h : walkBlockAux fl cur ins succs = .ok p) :
    cur < fl.dom := by
  rw [walkBlockAux] at h
  split at h
  · exact Except.noConfusion h
  · rename_i len hcur
    exact insnLength_lt_dom hcur

/-- The `while let Some(first_insn) = queue.pop_front()` loop of
`get_basic_blocks`: pop the front of the queue; skip it when a block keyed by
that address was already committed; otherwise build its block with the inner
loop (an `Err` from `get_insn_length` propagates out), enqueue the block's
successors, and commit the block as the triple
`(addr, insns, successors)` — the `length` field and the final
predecessor-inversion pass (which only fills `predecessors`) are not
modelled.  The two proof parameters record that committed block keys are
distinct decoded addresses; they exist only to bound the recursion. -/
def getBasicBlocksLoop (fl : Flow) :
    (queue : List Nat) → (bbs : List (Nat × List Nat × List Nat)) →
    (bbs.map fun b => b.1).Nodup → (∀ b ∈ bbs, b.1 < fl.dom) →
    Except Unit (List (Nat × List Nat × List Nat))
  | [], bbs, _, _ => .ok bbs
  | rva :: rest, bbs, hnd, hbd =>
    if hmem : bbs.any fun b => b.1 == rva then
      getBasicBlocksLoop fl rest bbs hnd hbd
    else
      match hwb : walkBlock fl rva with
      | .error e => .error e
      | .ok (ins, succs) =>
        getBasicBlocksLoop fl (rest ++ succs) (bbs ++ [(rva, ins, succs)])
          (by
            rw [List.map_append]
            refine List.Nodup.append hnd (List.nodup_singleton _) ?_
            intro a ha hb
            rw [List.mem_map] at ha
            obtain ⟨b, hbmem, rfl⟩ := ha
            rw [List.map_singleton, List.mem_singleton] at hb
            rw [List.any_eq_true] at hmem
            push_neg at hmem
            have := hmem b hbmem
            rw [hb] at this
            simp at this)
          (by
            intro b hb
            rw [List.mem_append] at hb
            rcases hb with hb | hb
            · exact hbd b hb
            · rw [List.mem_singleton] at hb
              subst hb
              exact walkBlockAux_ok_lt hwb)
termination_by queue bbs => (fl.dom - bbs.length, queue.length)
decreasing_by
  · apply Prod.Lex.right
    simp
  · apply Prod.Lex.left
    have hrd : rva < fl.dom := walkBlockAux_ok_lt hwb
    have hnotin : ∀ b ∈ bbs, b.1 ≠ rva := by
      intro b hb heq
      rw [List.any_eq_true] at hmem
      push_neg at hmem
      have := hmem b hb
      rw [heq] at this
      simp at this
    have hnd2 : ((bbs.map fun b => b.1) ++ [rva]).Nodup := by
      refine List.Nodup.append hnd (List.nodup_singleton _) ?_
      intro a ha hb
      rw [List.mem_map] at ha
      obtain ⟨b, hbmem, rfl⟩ := ha
      rw [List.mem_singleton] at hb
      exact hnotin b hbmem hb
    have hbound : ∀ x ∈ (bbs.map fun b => b.1) ++ [rva], x < fl.dom := by
      intro x hx
      rw [List.mem_append] at hx
      rcases hx with hx | hx
      · rw [List.mem_map] at hx
        obtain ⟨b, hbmem, rfl⟩ := hx
        exact hbd b hbmem
      · rw [List.mem_singleton] at hx
        subst hx
        exact hrd
    have hle := nodupBoundLen _ _ hnd2 hbound
    simp only [List.length_append, List.length_map, List.length_singleton] at hle
    simp only [List.length_append, List.length_singleton]
    omega

/-- `Workspace::get_basic_blocks(entry)`: run the queue loop from a
single-element queue. -/
def getBasicBlocks (fl : Flow) (entry : Nat) :
    Except Unit (List (Nat × List Nat × List Nat)) :=
  getBasicBlocksLoop fl [entry] [] (by simp) (by simp)

/-- Every block in the loop's output was either already committed or was
produced by the inner block walk at its own address. -/
lemma getBasicBlocksLoop_mem (fl : Flow) :
    ∀ k bbs, fl.dom - bbs.length = k →
      ∀ queue hnd hbd out, getBasicBlocksLoop fl queue bbs hnd hbd = .ok out →
        ∀ b, b ∈ out → b ∈ bbs ∨ walkBlock fl b.1 = .ok (b.2.1, b.2.2) := by
  intro k
  induction k using Nat.strong_induction_on with
  | _ k ihk =>
    intro bbs hk queue
    induction queue with
    | nil =>
      intro hnd hbd out h b hb
      rw [getBasicBlocksLoop] at h
      injection h with h
      subst h
      exact Or.inl hb
    | cons rva rest ihq =>
      intro hnd hbd out h b hb
      rw [getBasicBlocksLoop] at h
      split at h
      · exact ihq hnd hbd out h b hb
      · rename_i hmem
        split at h
        · exact Except.noConfusion h
        · rename_i ins succs hwb
          have hrd : rva < fl.dom := walkBlockAux_ok_lt hwb
          have hnotin : ∀ c ∈ bbs, c.1 ≠ rva := by
            intro c hc heq
            rw [List.any_eq_true] at hmem
            push_neg at hmem
            have := hmem c hc
            rw [heq] at this
            simp at this
          have hlt : fl.dom - (bbs ++ [(rva, ins, succs)]).length < fl.dom - bbs.length := by
            have hnd' : ((bbs.map fun c => c.1) ++ [rva]).Nodup := by
              refine List.Nodup.append hnd (List.nodup_singleton _) ?_
              intro a ha hb2
              rw [List.mem_map] at ha
              obtain ⟨c, hcmem, rfl⟩ := ha
              rw [List.mem_singleton] at hb2
              exact hnotin c hcmem hb2
            have hbound : ∀ x ∈ (bbs.map fun c => c.1) ++ [rva], x < fl.dom := by
              intro x hx
              rw [List.mem_append] at hx
              rcases hx with hx | hx
              · rw [List.mem_map] at hx
                obtain ⟨c, hcmem, rfl⟩ := hx
                exact hbd c hcmem
              · rw [List.mem_singleton] at hx
                subst hx
                exact hrd
            have hle := nodupBoundLen _ _ hnd' hbound
            simp only [List.length_append, List.length_map,
              List.length_singleton] at hle
            simp only [List.length_append, List.length_singleton]
            omega
          have := ihk (fl.dom - (bbs ++ [(rva, ins, succs)]).length) (by omega)
            (bbs ++ [(rva, ins, succs)]) rfl _ _ _ out h b hb
          rcases this with hin | hok
          · rw [List.mem_append] at hin
            rcases hin with hin | hin
            · exact Or.inl hin
            · rw [List.mem_singleton] at hin
              subst hin
              exact Or.inr hwb
          · exact Or.inr hok

end Bb

namespace Bb

lemma mem_flowDsts_nonCallDsts {fl : Flow} {i d : Nat} (h : d ∈ flowDsts fl i) :
    d ∈ nonCallDsts fl i := by
  rw [flowDsts, List.mem_filterMap] at h
  obtain ⟨x, hx, hfx⟩ := h
  rw [nonCallDsts, List.mem_filterMap]
  refine ⟨x, hx, ?_⟩
  cases htyp : x.typ <;> rw [htyp] at hfx <;> first
    | exact Option.noConfusion hfx
    | exact hfx

end Bb

/-- C6: every basic block produced by `get_basic_blocks` is a maximal run of
consecutive decoded instructions whose non-final members are non-terminal and
whose final member terminates by (a) no fallthrough xref, (b) non-fallthrough
xrefs-from, or (c) non-fallthrough xrefs-to at the fallthrough target
(`blockShape`); and the block's successor set is exactly the final
instruction's non-Call xref-from destinations together with, in cases (b)
and (c), the fallthrough address.  The hypothesis `hft` is the xref-graph
well-formedness fact that Fallthrough xrefs point to the next instruction. -/
theorem c6_basic_block_structure (fl : Bb.Flow) (entry : Nat)
    (bbs : List (Nat × List Nat × List Nat))
    (hft : ∀ a x, x ∈ fl.xrefsFrom a → x.typ = Bb.XrefType.fallthrough →
      ∃ len, fl.insnLength a = some len ∧ x.dst = a + len)
    (hout : Bb.getBasicBlocks fl entry = .ok bbs) :
    ∀ b ∈ bbs, ∃ last len,
      Bb.blockShape fl b.1 b.2.1 = true ∧
      b.2.1.getLast? = some last ∧
      fl.insnLength last = some len ∧
      ∀ d, d ∈ b.2.2 ↔
        (d ∈ Bb.nonCallDsts fl last ∨
          (Bb.pushedNext fl last len = true ∧ d = last + len)) := by
  intro b hb
  unfold Bb.getBasicBlocks at hout
  have hsrc := Bb.getBasicBlocksLoop_mem fl
    (fl.dom - ([] : List (Nat × List Nat × List Nat)).length) [] rfl
    [entry] (by simp) (by simp) bbs hout b hb
  rcases hsrc with hin | hwb
  · exact absurd hin (List.not_mem_nil b)
  · have hspec := Bb.walkBlockAux_spec fl (fl.dom - b.1) b.1 [] []
      (b.2.1, b.2.2) rfl hwb
    obtain ⟨body, last, len, h1, h2, h3, h4, h5, h6⟩ := hspec
    dsimp only at h1 h6
    rw [List.nil_append] at h1 h6
    refine ⟨last, len, ?_, ?_, h4, ?_⟩
    · rw [h1]
      exact h2
    · rw [h1]
      exact h3
    · intro d
      rw [h6]
      constructor
      · intro hd
        rw [List.mem_append] at hd
        rcases hd with hd | hd
        · exact Or.inl (Bb.mem_flowDsts_nonCallDsts hd)
        · by_cases hpn : Bb.pushedNext fl last len = true
          · rw [if_pos hpn] at hd
            rw [List.mem_singleton] at hd
            exact Or.inr ⟨hpn, hd⟩
          · rw [if_neg hpn] at hd
            exact absurd hd (List.not_mem_nil d)
      · intro hd
        rcases hd with hd | ⟨hpn, rfl⟩
        · rw [Bb.nonCallDsts, List.mem_filterMap] at hd
          obtain ⟨x, hx, hfx⟩ := hd
          rw [List.mem_append]
          cases htyp : x.typ
          case fallthrough =>
            rw [htyp] at hfx
            injection hfx with hfx
            obtain ⟨len0, hl0, hdst⟩ := hft last x hx htyp
            rw [h4] at hl0
            injection hl0 with hl0
            have hFT : Bb.hasFallthrough fl last = true := by
              rw [Bb.hasFallthrough, List.any_eq_true]
              exact ⟨x, hx, by rw [htyp]; rfl⟩
            have hpn : Bb.pushedNext fl last len = true := by
              unfold Bb.pushedNext
              rw [hFT]
              have h5x := h5
              unfold Bb.isTerminalB at h5x
              rw [h4, hFT] at h5x
              simp only [Bool.not_true, Bool.false_or] at h5x
              simp only [Bool.true_and]
              exact h5x
            right
            rw [if_pos hpn, List.mem_singleton]
            rw [← hfx, hdst, hl0]
          case call =>
            rw [htyp] at hfx
            exact Option.noConfusion hfx
          case unconditionalJump =>
            left
            rw [Bb.flowDsts, List.mem_filterMap]
            exact ⟨x, hx, by rw [htyp]; rw [htyp] at hfx; exact hfx⟩
          case conditionalJump =>
            left
            rw [Bb.flowDsts, List.mem_filterMap]
            exact ⟨x, hx, by rw [htyp]; rw [htyp] at hfx; exact hfx⟩
          case conditionalMove =>
            left
            rw [Bb.flowDsts, List.mem_filterMap]
            exact ⟨x, hx, by rw [htyp]; rw [htyp] at hfx; exact hfx⟩
        · rw [List.mem_append]
          right
          rw [if_pos hpn, List.mem_singleton]

/-- A flow map holding a single one-byte instruction at address 0 with no
xrefs at all. -/
def flOne : Bb.Flow where
  insnLength := fun a => if a = 0 then some 1 else none
  xrefsFrom := fun _ => []
  xrefsTo := fun _ => []
  dom := 1
  hdom := by
    intro a ha
    dsimp only
    rw [if_neg (by omega)]
  hlen := by
    intro a l h
    dsimp only at h
    split at h
    · injection h with h
      omega
    · exact Option.noConfusion h

/-- C6 (witness): on the one-instruction flow, `get_basic_blocks(0)` yields
the single block `{0}` with no successors, and the theorem's structure facts
evaluate at it. -/
theorem c6_basic_block_structure_witness :
    ∃ last len,
      Bb.blockShape flOne 0 [0] = true ∧
      ([0] : List Nat).getLast? = some last ∧
      flOne.insnLength last = some len ∧
      ∀ d, d ∈ ([] : List Nat) ↔
        (d ∈ Bb.nonCallDsts flOne last ∨
          (Bb.pushedNext flOne last len = true ∧ d = last + len)) := by
  have hwb : Bb.walkBlock flOne 0 = .ok ([0], []) := by
    unfold Bb.walkBlock
    rw [Bb.walkBlockAux]
    simp [flOne, Bb.hasFallthrough, Bb.flowDsts]
  have hout : Bb.getBasicBlocks flOne 0 = .ok [(0, [0], [])] := by
    unfold Bb.getBasicBlocks
    rw [Bb.getBasicBlocksLoop.eq_def]
    simp only [List.any_nil, Bool.false_eq_true, dite_false, hwb]
    simp only [List.nil_append, List.append_nil]
    split
    · rename_i e he
      rw [hwb] at he
      exact Except.noConfusion he
    · rename_i ins succs he
      rw [hwb] at he
      injection he with he
      rw [Prod.mk.injEq] at he
      obtain ⟨h1, h2⟩ := he
      subst h1
      subst h2
      rw [Bb.getBasicBlocksLoop.eq_def]
  have h := c6_basic_block_structure flOne 0 [(0, [0], [])]
    (by
      intro a x hx htyp
      simp [flOne] at hx)
    hout (0, [0], []) (by simp)
  simpa using h
